import Mathlib

/-!
# Verification of the OwnParser content-extraction pipeline

Shallow embedding of the two core stages of the repository
(`main.py`, `config.py`): the density-based tree pruner
(`Parser.main_content` with its helpers `_calc_depth` / `_calc_density`)
and the text post-processor (`Formatter.prepare_text` with
`_domain_name`, `_get_urls`, `_add_urls`).

Modelling conventions:
* the tag tree is an inductive type `Node` (elements carry a tag and the
  ordered list of contents, which includes text nodes, exactly as
  `node.contents` does);
* Python `float` arithmetic on thresholds is modelled with exact `ℚ`
  (the configured coefficients 0.5 / 1.0 and all small sums are exact
  in both systems);
* a density dictionary is modelled positionally: its keys are the element
  children of one node in document order; a decomposed key is an inert
  `none` slot (a decomposed bs4 tag has no children and is skipped by all
  the loops);
* runtime failures of the Python code (`UnboundLocalError` for an
  unassigned threshold variable, `KeyError` for a missing attribute,
  `AttributeError` for a failed regex match) are values of `Err`;
* the recursion of `main_content` is fuel-indexed; sufficiency of the
  fuel is proved, which also settles the recursion-depth bound;
* regular expressions are modelled by their literal-scan semantics on
  ASCII text (word characters are alphanumerics and underscore).
-/

namespace OwnParser

/-- A markup tree node: an element with a tag and ordered contents
(which may include text nodes), or a bare text node. -/
inductive Node : Type where
  | elem : String → List Node → Node
  | txt : String → Node
deriving Repr

mutual

/-- Structural decidable equality on `Node`. -/
def nodeDecEq : (a b : Node) → Decidable (a = b)
  | .elem t cs, .elem u ds =>
    match String.decEq t u with
    | isTrue ht =>
      match nodeListDecEq cs ds with
      | isTrue hc => isTrue (by rw [ht, hc])
      | isFalse hc => isFalse (fun h => by injection h; contradiction)
    | isFalse ht => isFalse (fun h => by injection h; contradiction)
  | .elem _ _, .txt _ => isFalse (fun h => Node.noConfusion h)
  | .txt _, .elem _ _ => isFalse (fun h => Node.noConfusion h)
  | .txt s, .txt u =>
    match String.decEq s u with
    | isTrue h => isTrue (by rw [h])
    | isFalse h => isFalse (fun hh => by injection hh; contradiction)

/-- Structural decidable equality on lists of `Node`. -/
def nodeListDecEq : (a b : List Node) → Decidable (a = b)
  | [], [] => isTrue rfl
  | [], _ :: _ => isFalse (fun h => List.noConfusion h)
  | _ :: _, [] => isFalse (fun h => List.noConfusion h)
  | a :: as, b :: bs =>
    match nodeDecEq a b with
    | isTrue h1 =>
      match nodeListDecEq as bs with
      | isTrue h2 => isTrue (by rw [h1, h2])
      | isFalse h2 => isFalse (fun h => by injection h; contradiction)
    | isFalse h1 => isFalse (fun h => by injection h; contradiction)

end

instance : DecidableEq Node := nodeDecEq

/-- Decidable equality for `Except` results. -/
def exceptDecEq {ε α : Type} [DecidableEq ε] [DecidableEq α] :
    (a b : Except ε α) → Decidable (a = b)
  | .ok a, .ok b =>
    if h : a = b then isTrue (by rw [h])
    else isFalse (fun hh => by injection hh; contradiction)
  | .ok _, .error _ => isFalse (fun h => Except.noConfusion h)
  | .error _, .ok _ => isFalse (fun h => Except.noConfusion h)
  | .error e, .error f =>
    if h : e = f then isTrue (by rw [h])
    else isFalse (fun hh => by injection hh; contradiction)

instance {ε α : Type} [DecidableEq ε] [DecidableEq α] :
    DecidableEq (Except ε α) := exceptDecEq

/-- Errors the Python code can raise at runtime, plus fuel exhaustion of
the fuel-indexed embedding of the recursion. -/
inductive Err : Type where
  | fuel : Err
  | unboundLocal : Err
  | keyError : Err
  | attrError : Err
deriving DecidableEq, Repr

mutual

/-- `Parser._calc_depth`: 0 for a node with no contents (in particular a
text node, which has no `contents` attribute), otherwise one more than
the maximum over all contents (text nodes included, as in the source). -/
def calc_depth : Node → Nat
  | .txt _ => 0
  | .elem _ [] => 0
  | .elem _ (c :: rest) => depthMaxList (c :: rest) + 1

/-- Maximum of `calc_depth` over a list, with 0 for the empty list; on a
nonempty list this is Python's `max(...)` since depths are nonnegative. -/
def depthMaxList : List Node → Nat
  | [] => 0
  | c :: rest => max (calc_depth c) (depthMaxList rest)

end

/-- Whether a node is an element (matched by `find_all(True)`). -/
def isElem : Node → Bool
  | .elem _ _ => true
  | .txt _ => false

/-- The tag of a node (`node.name`); text nodes get a placeholder. -/
def tagOf : Node → String
  | .elem t _ => t
  | .txt _ => ""

/-- The contents list of a node. -/
def contentsOf : Node → List Node
  | .elem _ cs => cs
  | .txt _ => []

/-- `node.find_all(True, recursive=False)`: the element children, in
document order. -/
def elemsOf (cs : List Node) : List Node := cs.filter (fun c => isElem c)

mutual

/-- `node.h1` truthiness: whether some strict descendant is an `h1`. -/
def hasH1 : Node → Bool
  | .txt _ => false
  | .elem _ cs => hasH1List cs

def hasH1List : List Node → Bool
  | [] => false
  | c :: rest => (tagOf c = "h1" && isElem c) || hasH1 c || hasH1List rest

end

mutual

/-- `len(node.find_all('p'))`: the number of strict descendants tagged `p`. -/
def countP : Node → Nat
  | .txt _ => 0
  | .elem _ cs => countPList cs

def countPList : List Node → Nat
  | [] => 0
  | c :: rest =>
      (if tagOf c = "p" && isElem c then 1 else 0) + countP c + countPList rest

end

/-- An exact rational value `num / den`, kept unnormalised so that all
threshold arithmetic reduces by kernel computation.  Thresholds are
compared with integer cross-multiplication; `fracLtNat_iff_ratCast`
below proves this agrees with the rational (hence, for the magnitudes at
hand, floating-point) comparison whenever `0 < den`. -/
structure Frac : Type where
  num : Int
  den : Int
deriving DecidableEq, Repr

/-- `(d : ℚ) < num / den`, decided by cross-multiplication (valid for
`0 < den`). -/
def fracLtNat (d : Nat) (f : Frac) : Bool := (d : Int) * f.den < f.num

/-- The runtime configuration (`config.Config`): the declared strategy
(`None` models an absent strategy) and the custom coefficient. -/
structure Config : Type where
  STRATEGY : Option String
  CUSTOM_COEFF : Frac
deriving DecidableEq, Repr

/-- The exemption tests of the deletion loop (`main.py` lines 162-171):
a node is skipped by `continue` if its tag is `p`/`h1`/`h2`, if it has an
`h1` descendant, or, in forced mode, if it has more than 3 `p`
descendants. -/
def exempt (forced : Bool) (n : Node) : Bool :=
  tagOf n = "p" || tagOf n = "h1" || tagOf n = "h2" || hasH1 n
    || (forced && decide (3 < countP n))

/-- The threshold of one level (`main.py` lines 144-153) for a nonempty
key set: `AVG` takes the mean of the densities, `CUSTOM` their sum times
the coefficient, and any other declared strategy leaves the local
variable `avg` unassigned (`none`). -/
def levelAvg (strat : String) (coef : Frac) (keys : List Node) : Option Frac :=
  if strat = "AVG" then some ⟨((keys.map calc_depth).sum : Int), (keys.length : Int)⟩
  else if strat = "CUSTOM" then
    some ⟨((keys.map calc_depth).sum : Int) * coef.num, coef.den⟩
  else none

/-- The deletion decision for one dictionary key (`main.py` lines
159-175): an exempt element is kept; a non-exempt one is compared with
the threshold and decomposed (`none`) when strictly below it; comparing
with an unassigned threshold raises `UnboundLocalError`.  Text nodes are
not dictionary keys and pass through. -/
def pruneSlot (forced : Bool) (avg : Option Frac) (c : Node) :
    Except Err (Option Node) :=
  if isElem c then
    if exempt forced c then .ok (some c)
    else
      match avg with
      | some a => .ok (if fracLtNat (calc_depth c) a then none else some c)
      | none => .error .unboundLocal
  else .ok (some c)

/-- The deletion loop over the snapshot of the keys, in document order. -/
def pruneSlots (forced : Bool) (avg : Option Frac) :
    List Node → Except Err (List (Option Node))
  | [] => .ok []
  | c :: rest =>
    match pruneSlot forced avg c with
    | .error e => .error e
    | .ok s =>
      match pruneSlots forced avg rest with
      | .error e => .error e
      | .ok ss => .ok (s :: ss)

/-- One recursive `main_content(density, ...)` call applied to a single
dictionary key: a decomposed key is inert, a live element key is handed
to the recursive processing `recur`, a text slot passes through. -/
def stepSlot (recur : Node → Except Err Node) :
    Option Node → Except Err (Option Node)
  | none => .ok none
  | some c =>
    if isElem c then
      match recur c with
      | .error e => .error e
      | .ok c' => .ok (some c')
    else .ok (some c)

/-- One recursive `main_content(density, ...)` call: the loop
`for node in density.keys()` over all slots of the dictionary. -/
def stepSlots (recur : Node → Except Err Node) :
    List (Option Node) → Except Err (List (Option Node))
  | [] => .ok []
  | s :: rest =>
    match stepSlot recur s with
    | .error e => .error e
    | .ok s' =>
      match stepSlots recur rest with
      | .error e => .error e
      | .ok ss => .ok (s' :: ss)

/-- `k`-fold sequential application with error propagation: the loop
`for node in density.keys(): self.main_content(density, ...)` performs
one full recursive pass per key of the dictionary. -/
def iterE {α : Type} : Nat → (α → Except Err α) → α → Except Err α
  | 0, _, a => .ok a
  | k + 1, g, a =>
    match g a with
    | .error e => .error e
    | .ok a' => iterE k g a'

/-- The body of `main_content` for one outer-loop key `n` (`main.py`
lines 137-179): compute the density dictionary of `n`'s element
children, derive the threshold, run the deletion loop once over the
snapshot, then recurse once per dictionary key into the same (partly
decomposed) dictionary.  An empty dictionary short-circuits (`AVG`
`continue`s, and the other strategies run empty loops). -/
def mcBody (cfg : Config) (forced : Bool)
    (recur : Node → Except Err Node) : Node → Except Err Node
  | .txt s => .ok (.txt s)
  | .elem t cs =>
    match cfg.STRATEGY with
    | none => .ok (.elem t cs)
    | some strat =>
      match elemsOf cs with
      | [] => .ok (.elem t cs)
      | _ :: _ =>
        match pruneSlots forced
            (levelAvg strat cfg.CUSTOM_COEFF (elemsOf cs)) cs with
        | .error e => .error e
        | .ok slots =>
          match iterE (elemsOf cs).length (stepSlots recur) slots with
          | .error e => .error e
          | .ok slots' => .ok (.elem t slots'.reduceOption)

/-- Fuel-indexed processing of one dictionary key, tying the recursion
of `main_content` through `mcBody`. -/
def mcKeyFuel : Nat → Config → Bool → Node → Except Err Node
  | 0, _, _, _ => .error .fuel
  | f + 1, cfg, forced, n => mcBody cfg forced (mcKeyFuel f cfg forced) n

/-- The entry call `main_content(density=None, soup=soup, forced=...)`
(`main.py` lines 128-133): with a declared strategy it computes the
dictionary of the root's element children, runs one full recursive pass
over it (the self-call of line 133), then falls through into the
strategy block and runs a second full pass over the same keys; the
root's own children are never decomposed.  With `STRATEGY = None` the
tree is returned unchanged. -/
def mainContentFuel (f : Nat) (cfg : Config) (forced : Bool) :
    Node → Except Err Node
  | .txt s => .ok (.txt s)
  | .elem t cs =>
    match cfg.STRATEGY with
    | none => .ok (.elem t cs)
    | some _ =>
      match stepSlots (mcKeyFuel f cfg forced) (cs.map some) with
      | .error e => .error e
      | .ok slots₁ =>
        match stepSlots (mcKeyFuel f cfg forced) slots₁ with
        | .error e => .error e
        | .ok slots₂ => .ok (.elem t slots₂.reduceOption)

/-- `Parser.main_content` on a whole tree, run with fuel equal to the
tree's depth (proved sufficient below). -/
def main_content (cfg : Config) (forced : Bool) (soup : Node) :
    Except Err Node :=
  mainContentFuel (calc_depth soup) cfg forced soup

mutual

/-- Whether the tree contains a node (itself included) with tag `t`. -/
def containsTag (t : String) : Node → Bool
  | .txt _ => false
  | .elem u cs => u = t || containsTagList t cs

/-- List form of `containsTag`. -/
def containsTagList (t : String) : List Node → Bool
  | [] => false
  | c :: rest => containsTag t c || containsTagList t rest

end

/-! ## The text stage (`Formatter`)

Text is modelled as `List Char`.  Python string primitives are embedded
by their documented semantics: `str.replace`/`re.sub` replace every
non-overlapping occurrence scanning left to right (an empty pattern
inserts the replacement at every gap), `str.strip`/`str.lstrip` drop
Python whitespace, and `str.split` splits on every non-overlapping
occurrence of the separator. -/

/-- Python whitespace (the ASCII characters of `str.strip` and `\s`). -/
def pyIsSpace (c : Char) : Bool :=
  c = ' ' || c = '\t' || c = '\n' || c = '\r' || c = '\x0b' || c = '\x0c'

/-- `str.lstrip()`. -/
def pyLstrip (s : List Char) : List Char := s.dropWhile pyIsSpace

/-- `str.strip()`. -/
def pyStrip (s : List Char) : List Char :=
  ((s.dropWhile pyIsSpace).reverse.dropWhile pyIsSpace).reverse

/-- Fuel-indexed replacement scan for a nonempty pattern `p :: ps`: at
each position, if the pattern is a prefix, emit the replacement and skip
the match, else emit one character and continue.  The fuel (one unit per
consumed position) only makes the recursion structural; `s.length` fuel
is exact (`replaceCoreF_fuel`). -/
def replaceCoreF (p : Char) (ps : List Char) (repl : List Char) :
    Nat → List Char → List Char
  | 0, s => s
  | _ + 1, [] => []
  | fuel + 1, c :: rest =>
    if (p :: ps).isPrefixOf (c :: rest) then
      repl ++ replaceCoreF p ps repl fuel (rest.drop ps.length)
    else
      c :: replaceCoreF p ps repl fuel rest

/-- The replacement scan for a nonempty pattern, with exact fuel. -/
def replaceCore (p : Char) (ps : List Char) (repl s : List Char) :
    List Char :=
  replaceCoreF p ps repl s.length s

/-- `s.replace('', repl)`: the replacement is inserted at every gap,
including before the first and after the last character. -/
def insertEverywhere (repl : List Char) : List Char → List Char
  | [] => repl
  | c :: rest => repl ++ c :: insertEverywhere repl rest

/-- Python `str.replace(pat, repl)` (with all occurrences replaced),
also the semantics of `re.sub` on a metacharacter-free pattern. -/
def replaceAll (pat repl s : List Char) : List Char :=
  match pat with
  | [] => insertEverywhere repl s
  | p :: ps => replaceCore p ps repl s

/-- The segments of a text split at every newline (`str.split('\n')`). -/
def linesOf : List Char → List (List Char)
  | [] => [[]]
  | c :: rest =>
    if c = '\n' then [] :: linesOf rest
    else
      match linesOf rest with
      | [] => [[c]]
      | l :: ls => (c :: l) :: ls

/-- The paragraph-splitting step of `Formatter.prepare_text` (`main.py`
lines 289-292) for one paragraph with flattened text `ptext` applied to
the running text `s`: a paragraph whose (untrimmed) text is empty is
skipped; otherwise every occurrence of the trimmed text is surrounded by
newlines via `str.replace`. -/
def split_paragraph (s : List Char) (ptext : List Char) : List Char :=
  if ptext = [] then s
  else replaceAll (pyStrip ptext) ('\n' :: (pyStrip ptext ++ ['\n'])) s

/-- Replace only the leftmost occurrence of a nonempty pattern. -/
def replaceFirstCore (p : Char) (ps : List Char) (repl : List Char) :
    List Char → List Char
  | [] => []
  | c :: rest =>
    if (p :: ps).isPrefixOf (c :: rest) then repl ++ rest.drop ps.length
    else c :: replaceFirstCore p ps repl rest

/-- The paragraph-splitting step as the specification describes it:
surround only the first exact occurrence of the trimmed text with
line-break markers (stated for comparison with `split_paragraph`). -/
def surroundFirst (s : List Char) (ptext : List Char) : List Char :=
  if ptext = [] then s
  else
    match pyStrip ptext with
    | [] => s
    | p :: ps => replaceFirstCore p ps ('\n' :: ((p :: ps) ++ ['\n'])) s

/-- Fuel-indexed Python `str.split` on a nonempty separator `p :: ps`;
`s.length` fuel is exact. -/
def splitOnSubF (p : Char) (ps : List Char) :
    Nat → List Char → List (List Char)
  | 0, _ => [[]]
  | _ + 1, [] => [[]]
  | fuel + 1, c :: rest =>
    if (p :: ps).isPrefixOf (c :: rest) then
      [] :: splitOnSubF p ps fuel (rest.drop ps.length)
    else
      match splitOnSubF p ps fuel rest with
      | [] => [[c]]
      | l :: ls => (c :: l) :: ls

/-- Python `str.split` on a nonempty separator `p :: ps`. -/
def splitOnSub (p : Char) (ps : List Char) (s : List Char) :
    List (List Char) :=
  splitOnSubF p ps s.length s

/-- `Formatter._domain_name` (`main.py` line 214):
`re.match('http(s)?://', url).group() + url.split('//')[-1].split('/')[0]`.
A url that does not start with the scheme makes `re.match` return `None`
and `.group()` raise `AttributeError`. -/
def domain_name (url : List Char) : Except Err (List Char) :=
  let scheme :=
    if ("https://".toList).isPrefixOf url then some ("https://".toList)
    else if ("http://".toList).isPrefixOf url then some ("http://".toList)
    else none
  match scheme with
  | none => .error .attrError
  | some sch =>
    let seg := (splitOnSub '/' ['/'] url).getLastD []
    .ok (sch ++ seg.takeWhile (fun c => c != '/'))

/-- Python's `in` on strings: whether `pat` occurs as a contiguous
substring of `s`. -/
def containsSub (pat : List Char) : List Char → Bool
  | [] => pat.isEmpty
  | c :: rest => pat.isPrefixOf (c :: rest) || containsSub pat rest

/-- An `<a>` anchor: its optional `href` attribute and its display text
(`url.text`). -/
structure Anchor : Type where
  href : Option (List Char)
  text : List Char
deriving DecidableEq, Repr

/-- The bracketed key built for one anchor (`main.py` lines 238-243):
an href that does not contain the substring `"http"` is prefixed with
the normalized domain (the `('http' or 'htpps')` expression of the
source evaluates to `'http'`). -/
def bracketKey (dom href : List Char) : List Char :=
  if containsSub ("http".toList) href then '[' :: (href ++ [']'])
  else '[' :: (dom ++ href ++ [']'])

/-- Python `dict` update: an existing key keeps its position and gets
the new value, a new key is appended. -/
def updateAssoc (m : List (List Char × List Char)) (k v : List Char) :
    List (List Char × List Char) :=
  if m.any (fun p => p.1 = k) then
    m.map (fun p => if p.1 = k then (k, v) else p)
  else m ++ [(k, v)]

/-- The anchor loop of `Formatter._get_urls`: each anchor's `href` is
read (`KeyError` when absent) and the dictionary maps the bracketed url
to the anchor's display text. -/
def getUrlsLoop (dom : List Char) (acc : List (List Char × List Char)) :
    List Anchor → Except Err (List (List Char × List Char))
  | [] => .ok acc
  | a :: rest =>
    match a.href with
    | none => .error .keyError
    | some h => getUrlsLoop dom (updateAssoc acc (bracketKey dom h) a.text) rest

/-- `Formatter._get_urls(urls, domain)`. -/
def get_urls (anchors : List Anchor) (domain : List Char) :
    Except Err (List (List Char × List Char)) :=
  match domain_name domain with
  | .error e => .error e
  | .ok dom => getUrlsLoop dom [] anchors

/-- `Formatter._add_urls(text, prepared_urls)` (`main.py` lines
260-262): for each dictionary entry, `re.sub` replaces every occurrence
of the anchor text by the anchor text followed by a space and the
bracketed url (anchor texts are modelled as metacharacter-free). -/
def add_urls (text : List Char) (prepared : List (List Char × List Char)) :
    List Char :=
  match prepared with
  | [] => text
  | (k, v) :: rest => add_urls (replaceAll v (v ++ ' ' :: k) text) rest

/-! ## The line wrapper of `prepare_text` -/

/-- `\w` of the tokenizing regex (ASCII). -/
def isWordChar (c : Char) : Bool := c.isAlphanum || c = '_'

/-- The single-character class `[\s.,!?;\()-]` of the tokenizing regex. -/
def isPunct (c : Char) : Bool :=
  c = '.' || c = ',' || c = '!' || c = '?' || c = ';' || c = '(' || c = ')'
    || c = '-'

/-- The scheme part `https?://` of the url alternative of the tokenizing
regex, tried greedily (`https://` before `http://`), applied to the input
after the opening bracket; returns the matched scheme and the rest. -/
def urlScheme (rest : List Char) : Option (List Char × List Char) :=
  if ("https://".toList).isPrefixOf rest then
    some ("https://".toList, rest.drop 8)
  else if ("http://".toList).isPrefixOf rest then
    some ("http://".toList, rest.drop 7)
  else none

/-- The candidate indices of the closing `]` inside the maximal nonspace
run after the scheme: a `]` at index `k ≥ 1` leaves a nonempty `[^\s]+`
match before it. -/
def urlKs (run : List Char) : List Nat :=
  (List.range run.length).filter
    (fun i => decide (1 ≤ i) && run.getD i ' ' = ']')

/-- After the scheme, the greedy `[^\s]+` followed by `\]` backtracks to
the last viable `]` (the largest candidate index). -/
def urlAfterScheme (sch rest2 : List Char) : Option (List Char × List Char) :=
  match (urlKs (rest2.takeWhile (fun c => !(pyIsSpace c)))).max? with
  | none => none
  | some k =>
    some ('[' :: (sch ++ ((rest2.takeWhile (fun c => !(pyIsSpace c))).take k
      ++ [']'])), rest2.drop (k + 1))

/-- The alternative `\[(https?://[^\s]+)\]` of the tokenizing regex at
the current position; returns the token and the remaining input. -/
def urlToken : List Char → Option (List Char × List Char)
  | [] => none
  | c :: rest =>
    if c = '[' then
      match urlScheme rest with
      | none => none
      | some (sch, rest2) => urlAfterScheme sch rest2
    else none

/-- Fuel-indexed tokenizing scan of `re.findall` (`main.py` line 299):
at every position try, in order, the bracketed-url alternative, a
maximal run of word characters, and the single-character class;
characters matching no alternative are dropped.  One fuel unit is spent
per position, so `s.length` fuel is exact (`tokenizeF_fuel`). -/
def tokenizeF : Nat → List Char → List (List Char)
  | 0, _ => []
  | _ + 1, [] => []
  | fuel + 1, c :: rest =>
    match urlToken (c :: rest) with
    | some (tok, rest') => tok :: tokenizeF fuel rest'
    | none =>
      if isWordChar c then
        ((c :: rest).takeWhile isWordChar)
          :: tokenizeF fuel (rest.dropWhile isWordChar)
      else if pyIsSpace c || isPunct c then
        [c] :: tokenizeF fuel rest
      else tokenizeF fuel rest

/-- The tokenizing scan at exact fuel. -/
def tokenize (s : List Char) : List (List Char) := tokenizeF s.length s

/-- One step of the wrapping loop (`main.py` lines 305-325) on the state
(output so far, running `length`): left-strip the token at line start,
advance `length`, emit a newline token immediately (falling through into
the not-taken overflow branches, which append it a second time), break
before a token that overflows the width, break after a token that lands
exactly on it, and append otherwise. -/
def wrapStep (maxLen : Nat) (acc : List Char × Nat) (tok : List Char) :
    List Char × Nat :=
  let out := acc.1
  let len0 := acc.2
  let w := if len0 = 1 then pyLstrip tok else tok
  let len1 := len0 + tok.length
  let p := if w = ['\n'] then (out ++ ['\n'], 1) else (out, len1)
  if maxLen < p.2 then (p.1 ++ '\n' :: w, w.length + 1)
  else if p.2 = maxLen then (p.1 ++ (w ++ ['\n']), 1)
  else (p.1 ++ w, p.2)

/-- The wrapping loop over a token list, from the initial state
(`new_string = ''`, `length = 1`). -/
def wrapTokens (maxLen : Nat) (toks : List (List Char)) : List Char :=
  (toks.foldl (wrapStep maxLen) ([], 1)).1

/-- The wrapping stage of `Formatter.prepare_text` (`main.py` lines
299-327): tokenize, run the wrapping loop, and collapse every triple
newline (`new_string.replace('\n\n\n', '\n')`). -/
def wrapStage (text : List Char) (maxLen : Nat) : List Char :=
  replaceAll ['\n', '\n', '\n'] ['\n'] (wrapTokens maxLen (tokenize text))

/-- Whether a node carries one of the content-bearing tags that the
deletion loop skips unconditionally. -/
def isContentTag (n : Node) : Bool :=
  tagOf n = "p" || tagOf n = "h1" || tagOf n = "h2"

/-- The number of direct children of a node that carry a content tag. -/
def contentChildCount (n : Node) : Nat :=
  ((contentsOf n).filter (fun c => isContentTag c)).length

/-- Content-tagged slot count of one dictionary. -/
def contentSlotCount (slots : List (Option Node)) : Nat :=
  (slots.reduceOption.filter (fun c => isContentTag c)).length

/-- Every live slot value has depth at most `D`. -/
def slotsBound (D : Nat) (slots : List (Option Node)) : Prop :=
  ∀ n₀ : Node, some n₀ ∈ slots → calc_depth n₀ ≤ D

/-- A line is acceptable for width `maxLen` against the token list
`allT`: it fits in the width, or it is a single token (possibly
left-stripped) standing on its own line. -/
def okLine (maxLen : Nat) (allT : List (List Char)) (l : List Char) : Prop :=
  l.length ≤ maxLen ∨ ∃ t ∈ allT, l = t ∨ l = pyLstrip t

/-- Invariant of the wrapping loop: every line of the output so far is
acceptable, and the running `length` strictly exceeds the length of the
current (last) line. -/
def wrapInv (maxLen : Nat) (allT : List (List Char))
    (st : List Char × Nat) : Prop :=
  (∀ l ∈ linesOf st.1, okLine maxLen allT l)
  ∧ ((linesOf st.1).getLastD []).length + 1 ≤ st.2

/-! ## Fidelity lemmas for the fuel-indexed scans -/

/-- Fidelity of the fraction model: for a positive denominator,
`fracLtNat` is exactly the rational comparison `d < num / den`. -/
theorem fracLtNat_iff_ratCast (d : Nat) (f : Frac) (h : 0 < f.den) :
    fracLtNat d f = true ↔ (d : ℚ) < (f.num : ℚ) / (f.den : ℚ) := by
  unfold fracLtNat
  rw [lt_div_iff₀ (by exact_mod_cast h)]
  rw [decide_eq_true_iff]
  constructor
  · intro hlt
    exact_mod_cast hlt
  · intro hlt
    exact_mod_cast hlt

/-- Any fuel at least the input length gives the same scan. -/
theorem replaceCoreF_fuel (p : Char) (ps repl : List Char) :
    ∀ f g s, s.length ≤ f → s.length ≤ g →
      replaceCoreF p ps repl f s = replaceCoreF p ps repl g s := by
  intro f
  induction f with
  | zero =>
    intro g s hf _
    have hs : s = [] := List.eq_nil_of_length_eq_zero (Nat.le_zero.mp hf)
    subst hs
    cases g <;> simp [replaceCoreF]
  | succ f ih =>
    intro g s hf hg
    match g, s with
    | 0, s =>
      have hs : s = [] := List.eq_nil_of_length_eq_zero (Nat.le_zero.mp hg)
      subst hs
      simp [replaceCoreF]
    | g + 1, [] => simp [replaceCoreF]
    | g + 1, c :: rest =>
      simp only [List.length_cons] at hf hg
      simp only [replaceCoreF]
      by_cases hpre : (p :: ps).isPrefixOf (c :: rest) = true
      · rw [if_pos hpre, if_pos hpre]
        have hd : (rest.drop ps.length).length ≤ rest.length := by
          simp [List.length_drop]
        rw [ih g (rest.drop ps.length) (by omega) (by omega)]
      · rw [if_neg hpre, if_neg hpre]
        rw [ih g rest (by omega) (by omega)]

/-- `replaceCore` on the empty input. -/
theorem replaceCore_nil (p : Char) (ps repl : List Char) :
    replaceCore p ps repl [] = [] := rfl

/-- `replaceCore` when the pattern matches at the head. -/
theorem replaceCore_match (p : Char) (ps repl : List Char) (c : Char)
    (rest : List Char) (hpre : (p :: ps).isPrefixOf (c :: rest) = true) :
    replaceCore p ps repl (c :: rest)
      = repl ++ replaceCore p ps repl (rest.drop ps.length) := by
  unfold replaceCore
  simp only [List.length_cons, replaceCoreF]
  rw [if_pos hpre]
  rw [replaceCoreF_fuel p ps repl rest.length (rest.drop ps.length).length
    (rest.drop ps.length) (by simp [List.length_drop]) le_rfl]

/-- `replaceCore` when the pattern does not match at the head. -/
theorem replaceCore_no_match (p : Char) (ps repl : List Char) (c : Char)
    (rest : List Char) (hpre : (p :: ps).isPrefixOf (c :: rest) = false) :
    replaceCore p ps repl (c :: rest) = c :: replaceCore p ps repl rest := by
  unfold replaceCore
  simp only [List.length_cons, replaceCoreF]
  rw [if_neg (by simp [hpre])]

/-- The scheme match never lengthens the remaining input. -/
theorem urlScheme_length (rest sch rest2 : List Char)
    (h : urlScheme rest = some (sch, rest2)) : rest2.length ≤ rest.length := by
  unfold urlScheme at h
  split at h
  · simp only [Option.some.injEq, Prod.mk.injEq] at h
    rw [← h.2]
    simp
  · split at h
    · simp only [Option.some.injEq, Prod.mk.injEq] at h
      rw [← h.2]
      simp
    · exact absurd h (by simp)

/-- The post-scheme match never lengthens the remaining input. -/
theorem urlAfterScheme_length (sch rest2 tok r : List Char)
    (h : urlAfterScheme sch rest2 = some (tok, r)) : r.length ≤ rest2.length := by
  unfold urlAfterScheme at h
  split at h
  · exact absurd h (by simp)
  · simp only [Option.some.injEq, Prod.mk.injEq] at h
    rw [← h.2]
    simp

/-- Consuming a url token consumes at least one input character. -/
theorem urlToken_shrinks (s tok rest : List Char)
    (h : urlToken s = some (tok, rest)) : rest.length < s.length := by
  match s with
  | [] => exact absurd h (by simp [urlToken])
  | c :: s' =>
    simp only [urlToken] at h
    split at h
    · split at h
      · exact absurd h (by simp)
      · rename_i sch rest2 hsch
        have h1 := urlScheme_length s' sch rest2 hsch
        have h2 := urlAfterScheme_length sch rest2 tok rest h
        simp only [List.length_cons]
        omega
    · exact absurd h (by simp)

/-- Any fuel at least the input length gives the same token list. -/
theorem tokenizeF_fuel :
    ∀ f g s, s.length ≤ f → s.length ≤ g → tokenizeF f s = tokenizeF g s := by
  intro f
  induction f with
  | zero =>
    intro g s hf _
    have hs : s = [] := List.eq_nil_of_length_eq_zero (Nat.le_zero.mp hf)
    subst hs
    cases g <;> simp [tokenizeF]
  | succ f ih =>
    intro g s hf hg
    match g, s with
    | 0, s =>
      have hs : s = [] := List.eq_nil_of_length_eq_zero (Nat.le_zero.mp hg)
      subst hs
      simp [tokenizeF]
    | g + 1, [] => simp [tokenizeF]
    | g + 1, c :: rest =>
      simp only [List.length_cons] at hf hg
      simp only [tokenizeF]
      cases hu : urlToken (c :: rest) with
      | some pr =>
        obtain ⟨tok, rest'⟩ := pr
        have hlt := urlToken_shrinks (c :: rest) tok rest' hu
        simp only [List.length_cons] at hlt
        dsimp only
        rw [ih g rest' (by omega) (by omega)]
      | none =>
        dsimp only
        by_cases hw : isWordChar c = true
        · rw [if_pos hw, if_pos hw]
          have hd := (List.dropWhile_sublist
            (l := rest) (p := isWordChar)).length_le
          rw [ih g (rest.dropWhile isWordChar) (by omega) (by omega)]
        · rw [if_neg hw, if_neg hw]
          by_cases hp : (pyIsSpace c || isPunct c) = true
          · rw [if_pos hp, if_pos hp]
            rw [ih g rest (by omega) (by omega)]
          · rw [if_neg hp, if_neg hp]
            exact ih g rest (by omega) (by omega)

/-! ## Structural lemmas about one `main_content` call -/

/-- Slot count of an empty dictionary. -/
theorem contentSlotCount_nil : contentSlotCount [] = 0 := rfl

/-- Slot count past a decomposed key. -/
theorem contentSlotCount_none (ss : List (Option Node)) :
    contentSlotCount (none :: ss) = contentSlotCount ss := by
  simp [contentSlotCount]

/-- Slot count past a live key. -/
theorem contentSlotCount_some (c : Node) (ss : List (Option Node)) :
    contentSlotCount (some c :: ss)
      = (if isContentTag c then 1 else 0) + contentSlotCount ss := by
  simp only [contentSlotCount, List.reduceOption_cons_of_some, List.filter_cons]
  by_cases hc : isContentTag c = true
  · simp only [hc, if_pos, List.length_cons]
    omega
  · simp [hc]

/-- Content count of a child list, cons form. -/
theorem contentFilter_cons (c : Node) (rest : List Node) :
    ((c :: rest).filter (fun d => isContentTag d)).length
      = (if isContentTag c then 1 else 0)
        + (rest.filter (fun d => isContentTag d)).length := by
  simp only [List.filter_cons]
  by_cases hc : isContentTag c = true
  · simp only [hc, if_pos, List.length_cons]
    omega
  · simp [hc]

/-- `mcBody` never changes the root constructor or the root tag of the
node it processes. -/
theorem mcBody_tag (cfg : Config) (forced : Bool)
    (recur : Node → Except Err Node) (n n' : Node)
    (h : mcBody cfg forced recur n = .ok n') :
    tagOf n' = tagOf n ∧ isElem n' = isElem n := by
  cases n with
  | txt s =>
    simp only [mcBody, Except.ok.injEq] at h
    subst h
    exact ⟨rfl, rfl⟩
  | elem t cs =>
    simp only [mcBody] at h
    split at h
    · simp only [Except.ok.injEq] at h
      subst h
      exact ⟨rfl, rfl⟩
    · split at h
      · simp only [Except.ok.injEq] at h
        subst h
        exact ⟨rfl, rfl⟩
      · split at h
        · exact absurd h (by simp)
        · split at h
          · exact absurd h (by simp)
          · simp only [Except.ok.injEq] at h
            subst h
            exact ⟨rfl, rfl⟩

/-- `mcKeyFuel` never changes the root constructor or the root tag. -/
theorem mcKeyFuel_tag (f : Nat) (cfg : Config) (forced : Bool) (n n' : Node)
    (h : mcKeyFuel f cfg forced n = .ok n') :
    tagOf n' = tagOf n ∧ isElem n' = isElem n := by
  cases f with
  | zero => exact absurd h (by simp [mcKeyFuel])
  | succ f => exact mcBody_tag cfg forced (mcKeyFuel f cfg forced) n n' h

/-- A content-tagged dictionary key is never decomposed by the deletion
loop: the `continue` of `main.py` line 162-163 fires first. -/
theorem pruneSlot_content (forced : Bool) (avg : Option Frac) (c : Node)
    (hc : isContentTag c = true) :
    pruneSlot forced avg c = .ok (some c) := by
  unfold pruneSlot
  by_cases he : isElem c = true
  · rw [if_pos he]
    have hex : exempt forced c = true := by
      unfold exempt
      unfold isContentTag at hc
      simp only [Bool.or_eq_true, decide_eq_true_eq] at hc ⊢
      tauto
    rw [if_pos hex]
  · rw [if_neg he]

/-- A successful deletion decision keeps the key or decomposes it; it
never substitutes another node. -/
theorem pruneSlot_cases (forced : Bool) (avg : Option Frac) (c : Node)
    (s : Option Node) (h : pruneSlot forced avg c = .ok s) :
    s = none ∨ s = some c := by
  unfold pruneSlot at h
  split at h
  · split at h
    · simp only [Except.ok.injEq] at h
      exact Or.inr h.symm
    · split at h
      · simp only [Except.ok.injEq] at h
        split at h
        · exact Or.inl h.symm
        · exact Or.inr h.symm
      · exact absurd h (by simp)
  · simp only [Except.ok.injEq] at h
    exact Or.inr h.symm

/-- The deletion loop preserves the number of content-tagged keys. -/
theorem pruneSlots_content (forced : Bool) (avg : Option Frac) :
    ∀ (cs : List Node) (slots : List (Option Node)),
      pruneSlots forced avg cs = .ok slots →
      contentSlotCount slots = (cs.filter (fun c => isContentTag c)).length := by
  intro cs
  induction cs with
  | nil =>
    intro slots h
    simp only [pruneSlots, Except.ok.injEq] at h
    subst h
    rfl
  | cons c rest ih =>
    intro slots h
    unfold pruneSlots at h
    split at h
    · exact absurd h (by simp)
    · rename_i s hs
      split at h
      · exact absurd h (by simp)
      · rename_i ss hss
        simp only [Except.ok.injEq] at h
        subst h
        have hrec := ih ss hss
        rw [contentFilter_cons]
        rcases pruneSlot_cases forced avg c s hs with h0 | h1
        · subst h0
          rw [contentSlotCount_none, hrec]
          by_cases hc : isContentTag c = true
          · rw [pruneSlot_content forced avg c hc] at hs
            exact absurd hs (by simp)
          · simp [hc]
        · subst h1
          rw [contentSlotCount_some, hrec]

/-- One recursive pass over a dictionary preserves the number of
content-tagged live slots: a key is never decomposed by the passes, and
processing keeps its tag. -/
theorem stepSlots_content (recur : Node → Except Err Node)
    (hrec : ∀ c c', recur c = .ok c' → tagOf c' = tagOf c) :
    ∀ (slots slots' : List (Option Node)),
      stepSlots recur slots = .ok slots' →
      contentSlotCount slots' = contentSlotCount slots := by
  intro slots
  induction slots with
  | nil =>
    intro slots' h
    simp only [stepSlots, Except.ok.injEq] at h
    subst h
    rfl
  | cons s rest ih =>
    intro slots' h
    unfold stepSlots at h
    split at h
    · exact absurd h (by simp)
    · rename_i s' hs
      split at h
      · exact absurd h (by simp)
      · rename_i ss hss
        simp only [Except.ok.injEq] at h
        subst h
        have hrest := ih ss hss
        cases s with
        | none =>
          simp only [stepSlot, Except.ok.injEq] at hs
          subst hs
          rw [contentSlotCount_none, contentSlotCount_none, hrest]
        | some c =>
          simp only [stepSlot] at hs
          split at hs
          · split at hs
            · exact absurd hs (by simp)
            · rename_i c' hc'
              simp only [Except.ok.injEq] at hs
              subst hs
              have htag : tagOf c' = tagOf c := hrec c c' hc'
              have hct : isContentTag c' = isContentTag c := by
                unfold isContentTag
                rw [htag]
              rw [contentSlotCount_some, contentSlotCount_some, hrest, hct]
          · simp only [Except.ok.injEq] at hs
            subst hs
            rw [contentSlotCount_some, contentSlotCount_some, hrest]

/-- The replacement scan copies any segment in which the pattern head
does not occur. -/
theorem replaceCore_skip (d : Char) (ds repl : List Char) :
    ∀ (s rest : List Char), d ∉ s →
      replaceCore d ds repl (s ++ rest) = s ++ replaceCore d ds repl rest := by
  intro s
  induction s with
  | nil => intro rest _; rfl
  | cons c s' ih =>
    intro rest hd
    have hcd : ¬(c = d) := by
      intro h
      exact hd (by rw [h]; exact List.mem_cons_self _ _)
    have hpre : (d :: ds).isPrefixOf (c :: (s' ++ rest)) = false := by
      simp only [List.isPrefixOf, Bool.and_eq_false_iff]
      left
      simp only [beq_eq_false_iff_ne, ne_eq]
      intro h
      exact hcd h.symm
    rw [List.cons_append, replaceCore_no_match d ds repl c (s' ++ rest) hpre]
    rw [ih rest (fun h => hd (List.mem_cons_of_mem c h))]
    simp

/-- The replacement scan fires on an occurrence of the pattern at the
current position and resumes after it. -/
theorem replaceCore_hit (d : Char) (ds repl : List Char) (rest : List Char) :
    replaceCore d ds repl ((d :: ds) ++ rest)
      = repl ++ replaceCore d ds repl rest := by
  have hpre : (d :: ds).isPrefixOf (d :: (ds ++ rest)) = true := by
    rw [List.isPrefixOf_iff_prefix]
    exact List.prefix_append (d :: ds) rest
  rw [List.cons_append, replaceCore_match d ds repl d (ds ++ rest) hpre]
  rw [List.drop_left]

/-- The replacement scan leaves a pattern-head-free text unchanged. -/
theorem replaceCore_id (d : Char) (ds repl : List Char) (s : List Char)
    (h : d ∉ s) : replaceCore d ds repl s = s := by
  have := replaceCore_skip d ds repl s [] h
  simpa [replaceCore_nil] using this

/-- An unrecognised declared strategy leaves the threshold unassigned. -/
theorem levelAvg_other (s : String) (coef : Frac) (keys : List Node)
    (h1 : s ≠ "AVG") (h2 : s ≠ "CUSTOM") : levelAvg s coef keys = none := by
  unfold levelAvg
  rw [if_neg h1, if_neg h2]

/-- With an unassigned threshold, the deletion loop raises
`UnboundLocalError` as soon as it reaches any non-exempt element key. -/
theorem pruneSlots_unbound (forced : Bool) :
    ∀ (cs : List Node), (∃ c ∈ cs, isElem c = true ∧ exempt forced c = false) →
      pruneSlots forced none cs = .error .unboundLocal := by
  intro cs
  induction cs with
  | nil => intro h; exact absurd h (by simp)
  | cons c rest ih =>
    intro h
    unfold pruneSlots
    by_cases hel : isElem c = true
    · by_cases hex : exempt forced c = true
      · have : pruneSlot forced none c = .ok (some c) := by
          unfold pruneSlot
          rw [if_pos hel, if_pos hex]
        rw [this]
        have hr : ∃ d ∈ rest, isElem d = true ∧ exempt forced d = false := by
          rcases h with ⟨d, hmem, hd⟩
          rcases List.mem_cons.mp hmem with rfl | hmem'
          · rw [hex] at hd
            exact absurd hd.2 (by simp)
          · exact ⟨d, hmem', hd⟩
        rw [ih hr]
      · have : pruneSlot forced none c = .error .unboundLocal := by
          unfold pruneSlot
          rw [if_pos hel, if_neg hex]
        rw [this]
    · have : pruneSlot forced none c = .ok (some c) := by
        unfold pruneSlot
        rw [if_neg hel]
      rw [this]
      have hr : ∃ d ∈ rest, isElem d = true ∧ exempt forced d = false := by
        rcases h with ⟨d, hmem, hd⟩
        rcases List.mem_cons.mp hmem with rfl | hmem'
        · exact absurd hd.1 hel
        · exact ⟨d, hmem', hd⟩
      rw [ih hr]

/-- The anchor loop raises `KeyError` as soon as any anchor has no
`href` attribute. -/
theorem getUrlsLoop_keyError (dom : List Char) :
    ∀ (anchors : List Anchor) (acc : List (List Char × List Char)),
      (∃ a ∈ anchors, a.href = none) →
      getUrlsLoop dom acc anchors = .error .keyError := by
  intro anchors
  induction anchors with
  | nil => intro acc h; exact absurd h (by simp)
  | cons a rest ih =>
    intro acc h
    unfold getUrlsLoop
    match ha : a.href with
    | none => rfl
    | some u =>
      have hr : ∃ b ∈ rest, b.href = none := by
        rcases h with ⟨b, hmem, hb⟩
        rcases List.mem_cons.mp hmem with rfl | hmem'
        · rw [ha] at hb
          exact absurd hb (by simp)
        · exact ⟨b, hmem', hb⟩
      exact ih _ hr

/-- A text all of whose characters are Python whitespace strips to the
empty string. -/
theorem pyStrip_space (p : List Char) (h : ∀ c ∈ p, pyIsSpace c = true) :
    pyStrip p = [] := by
  unfold pyStrip
  rw [List.dropWhile_eq_nil_iff.mpr h]
  simp

/-- The empty-pattern replacement written as a direct right fold. -/
theorem insertEverywhere_foldr (r : List Char) (s : List Char) :
    insertEverywhere r s = s.foldr (fun c acc => r ++ (c :: acc)) r := by
  induction s with
  | nil => rfl
  | cons c rest ih =>
    simp only [insertEverywhere, List.foldr_cons, ih]

/-- Iterated recursive passes preserve the content-tagged slot count. -/
theorem iterE_content (recur : Node → Except Err Node)
    (hrec : ∀ c c', recur c = .ok c' → tagOf c' = tagOf c) :
    ∀ (k : Nat) (slots slots' : List (Option Node)),
      iterE k (stepSlots recur) slots = .ok slots' →
      contentSlotCount slots' = contentSlotCount slots := by
  intro k
  induction k with
  | zero =>
    intro slots slots' h
    simp only [iterE, Except.ok.injEq] at h
    subst h
    rfl
  | succ k ih =>
    intro slots slots' h
    unfold iterE at h
    split at h
    · exact absurd h (by simp)
    · rename_i mid hmid
      have h1 := stepSlots_content recur hrec slots mid hmid
      have h2 := ih mid slots' h
      omega

/-! ## Depth and fuel lemmas for the recursion of `main_content` -/

/-- A member of a list is bounded by the running maximum. -/
theorem depthMaxList_mem_le (c : Node) :
    ∀ l : List Node, c ∈ l → calc_depth c ≤ depthMaxList l := by
  intro l
  induction l with
  | nil => intro h; exact absurd h (by simp)
  | cons d rest ih =>
    intro h
    rcases List.mem_cons.mp h with rfl | h'
    · simp [depthMaxList]
    · calc calc_depth c ≤ depthMaxList rest := ih h'
        _ ≤ depthMaxList (d :: rest) := by simp [depthMaxList]

/-- The running maximum is bounded by any common bound. -/
theorem depthMaxList_le (D : Nat) :
    ∀ l : List Node, (∀ d ∈ l, calc_depth d ≤ D) → depthMaxList l ≤ D := by
  intro l
  induction l with
  | nil => intro _; simp [depthMaxList]
  | cons d rest ih =>
    intro h
    simp only [depthMaxList, max_le_iff]
    exact ⟨h d (List.mem_cons_self d rest), ih (fun e he => h e (List.mem_cons_of_mem d he))⟩

/-- The depth of a nonempty element. -/
theorem calc_depth_elem_cons (t : String) (c : Node) (rest : List Node) :
    calc_depth (.elem t (c :: rest)) = depthMaxList (c :: rest) + 1 := rfl

/-- Children are strictly shallower than their parent. -/
theorem calc_depth_child_lt (t : String) (cs : List Node) (c : Node)
    (h : c ∈ cs) : calc_depth c < calc_depth (.elem t cs) := by
  cases cs with
  | nil => exact absurd h (by simp)
  | cons d rest =>
    rw [calc_depth_elem_cons]
    have := depthMaxList_mem_le c (d :: rest) h
    omega

/-- The values of the slots produced by the deletion loop are original
keys. -/
theorem pruneSlots_mem (forced : Bool) (avg : Option Frac) :
    ∀ (cs : List Node) (slots : List (Option Node)),
      pruneSlots forced avg cs = .ok slots →
      ∀ n₀ : Node, some n₀ ∈ slots → n₀ ∈ cs := by
  intro cs
  induction cs with
  | nil =>
    intro slots h n₀ hmem
    simp only [pruneSlots, Except.ok.injEq] at h
    subst h
    exact absurd hmem (by simp)
  | cons c rest ih =>
    intro slots h n₀ hmem
    unfold pruneSlots at h
    split at h
    · exact absurd h (by simp)
    · rename_i s hs
      split at h
      · exact absurd h (by simp)
      · rename_i ss hss
        simp only [Except.ok.injEq] at h
        subst h
        rcases List.mem_cons.mp hmem with heq | hmem'
        · rcases pruneSlot_cases forced avg c s hs with h0 | h1
          · rw [h0] at heq
            exact absurd heq (by simp)
          · rw [h1] at heq
            simp only [Option.some.injEq] at heq
            rw [heq]
            exact List.mem_cons_self _ _
        · exact List.mem_cons_of_mem c (ih ss hss n₀ hmem')

/-- An error of the deletion loop is an `UnboundLocalError`. -/
theorem pruneSlots_err (forced : Bool) (avg : Option Frac) :
    ∀ (cs : List Node) (e : Err),
      pruneSlots forced avg cs = .error e → e = .unboundLocal := by
  intro cs
  induction cs with
  | nil => intro e h; exact absurd h (by simp [pruneSlots])
  | cons c rest ih =>
    intro e h
    unfold pruneSlots at h
    split at h
    · rename_i e' he
      simp only [Except.error.injEq] at h
      subst h
      unfold pruneSlot at he
      split at he
      · split at he
        · exact absurd he (by simp)
        · split at he
          · exact absurd he (by simp)
          · simp only [Except.error.injEq] at he
            exact he.symm
      · exact absurd he (by simp)
    · split at h
      · rename_i e' he
        simp only [Except.error.injEq] at h
        subst h
        exact ih e' he
      · exact absurd h (by simp)

/-- One recursive pass, for a recursion that does not deepen a node,
keeps the slot depth bound. -/
theorem stepSlots_bound (recur : Node → Except Err Node)
    (hrec : ∀ c c', recur c = .ok c' → calc_depth c' ≤ calc_depth c)
    (D : Nat) :
    ∀ (slots slots' : List (Option Node)),
      stepSlots recur slots = .ok slots' →
      slotsBound D slots → slotsBound D slots' := by
  intro slots
  induction slots with
  | nil =>
    intro slots' h _
    simp only [stepSlots, Except.ok.injEq] at h
    subst h
    intro n₀ hmem
    exact absurd hmem (by simp)
  | cons s rest ih =>
    intro slots' h hb
    unfold stepSlots at h
    split at h
    · exact absurd h (by simp)
    · rename_i s' hs
      split at h
      · exact absurd h (by simp)
      · rename_i ss hss
        simp only [Except.ok.injEq] at h
        subst h
        have hbrest : slotsBound D rest :=
          fun n₀ hm => hb n₀ (List.mem_cons_of_mem s hm)
        have hrest := ih ss hss hbrest
        intro n₀ hmem
        rcases List.mem_cons.mp hmem with heq | hmem'
        · cases s with
          | none =>
            simp only [stepSlot, Except.ok.injEq] at hs
            subst hs
            exact absurd heq (by simp)
          | some c =>
            have hc : calc_depth c ≤ D := hb c (List.mem_cons_self _ _)
            simp only [stepSlot] at hs
            split at hs
            · split at hs
              · exact absurd hs (by simp)
              · rename_i c' hc'
                simp only [Except.ok.injEq] at hs
                subst hs
                simp only [Option.some.injEq] at heq
                subst heq
                exact le_trans (hrec c n₀ hc') hc
            · simp only [Except.ok.injEq] at hs
              subst hs
              simp only [Option.some.injEq] at heq
              subst heq
              exact hc
        · exact hrest n₀ hmem'

/-- Two recursions that agree on all nodes within the depth bound give
the same pass. -/
theorem stepSlots_congr (r1 r2 : Node → Except Err Node) (D : Nat)
    (hagree : ∀ c, calc_depth c ≤ D → r1 c = r2 c) :
    ∀ slots : List (Option Node),
      slotsBound D slots → stepSlots r1 slots = stepSlots r2 slots := by
  intro slots
  induction slots with
  | nil => intro _; rfl
  | cons s rest ih =>
    intro hb
    have hbrest : slotsBound D rest :=
      fun n₀ hm => hb n₀ (List.mem_cons_of_mem s hm)
    have hstep : stepSlot r1 s = stepSlot r2 s := by
      cases s with
      | none => rfl
      | some c =>
        simp only [stepSlot]
        by_cases he : isElem c = true
        · rw [if_pos he, if_pos he,
            hagree c (hb c (List.mem_cons_self _ _))]
        · rw [if_neg he, if_neg he]
    unfold stepSlots
    rw [hstep, ih hbrest]

/-- An error raised by one pass comes from the recursion on some live
slot value. -/
theorem stepSlots_err (recur : Node → Except Err Node) :
    ∀ (slots : List (Option Node)) (e : Err),
      stepSlots recur slots = .error e →
      ∃ c : Node, some c ∈ slots ∧ recur c = .error e := by
  intro slots
  induction slots with
  | nil => intro e h; exact absurd h (by simp [stepSlots])
  | cons s rest ih =>
    intro e h
    unfold stepSlots at h
    split at h
    · rename_i e' he
      simp only [Except.error.injEq] at h
      subst h
      cases s with
      | none => exact absurd he (by simp [stepSlot])
      | some c =>
        simp only [stepSlot] at he
        split at he
        · split at he
          · rename_i e'' he''
            simp only [Except.error.injEq] at he
            subst he
            exact ⟨c, List.mem_cons_self _ _, he''⟩
          · exact absurd he (by simp)
        · exact absurd he (by simp)
    · split at h
      · rename_i e' he
        simp only [Except.error.injEq] at h
        subst h
        rcases ih e' he with ⟨c, hmem, hc⟩
        exact ⟨c, List.mem_cons_of_mem s hmem, hc⟩
      · exact absurd h (by simp)

/-- Iterated passes keep the slot depth bound. -/
theorem iterE_bound (recur : Node → Except Err Node)
    (hrec : ∀ c c', recur c = .ok c' → calc_depth c' ≤ calc_depth c)
    (D : Nat) :
    ∀ (k : Nat) (slots slots' : List (Option Node)),
      iterE k (stepSlots recur) slots = .ok slots' →
      slotsBound D slots → slotsBound D slots' := by
  intro k
  induction k with
  | zero =>
    intro slots slots' h hb
    simp only [iterE, Except.ok.injEq] at h
    subst h
    exact hb
  | succ k ih =>
    intro slots slots' h hb
    unfold iterE at h
    split at h
    · exact absurd h (by simp)
    · rename_i mid hmid
      exact ih mid slots' h (stepSlots_bound recur hrec D slots mid hmid hb)

/-- Iterated passes of two recursions that agree within the bound (and
do not deepen nodes) coincide. -/
theorem iterE_congr (r1 r2 : Node → Except Err Node) (D : Nat)
    (hagree : ∀ c, calc_depth c ≤ D → r1 c = r2 c)
    (hrec : ∀ c c', r1 c = .ok c' → calc_depth c' ≤ calc_depth c) :
    ∀ (k : Nat) (slots : List (Option Node)),
      slotsBound D slots →
      iterE k (stepSlots r1) slots = iterE k (stepSlots r2) slots := by
  intro k
  induction k with
  | zero => intro slots _; rfl
  | succ k ih =>
    intro slots hb
    unfold iterE
    rw [← stepSlots_congr r1 r2 D hagree slots hb]
    split
    · rfl
    · rename_i mid hmid
      exact ih mid (stepSlots_bound r1 hrec D slots mid hmid hb)

/-- An error raised by iterated passes comes from the recursion on some
node within the depth bound. -/
theorem iterE_err (recur : Node → Except Err Node)
    (hrec : ∀ c c', recur c = .ok c' → calc_depth c' ≤ calc_depth c)
    (D : Nat) :
    ∀ (k : Nat) (slots : List (Option Node)) (e : Err),
      iterE k (stepSlots recur) slots = .error e → slotsBound D slots →
      ∃ c : Node, calc_depth c ≤ D ∧ recur c = .error e := by
  intro k
  induction k with
  | zero =>
    intro slots e h _
    exact absurd h (by simp [iterE])
  | succ k ih =>
    intro slots e h hb
    unfold iterE at h
    split at h
    · rename_i e' he
      simp only [Except.error.injEq] at h
      subst h
      rcases stepSlots_err recur slots e' he with ⟨c, hmem, hc⟩
      exact ⟨c, hb c hmem, hc⟩
    · rename_i mid hmid
      exact ih mid e h (stepSlots_bound recur hrec D slots mid hmid hb)

/-- Processing a dictionary key never deepens it: the call only removes
subtrees. -/
theorem mcKeyFuel_depth_le :
    ∀ (f : Nat) (cfg : Config) (forced : Bool) (n n' : Node),
      mcKeyFuel f cfg forced n = .ok n' → calc_depth n' ≤ calc_depth n := by
  intro f
  induction f with
  | zero =>
    intro cfg forced n n' h
    exact absurd h (by simp [mcKeyFuel])
  | succ f ih =>
    intro cfg forced n n' h
    simp only [mcKeyFuel] at h
    cases n with
    | txt s =>
      simp only [mcBody, Except.ok.injEq] at h
      subst h
      exact le_rfl
    | elem t cs =>
      simp only [mcBody] at h
      split at h
      · simp only [Except.ok.injEq] at h
        subst h
        exact le_rfl
      · split at h
        · simp only [Except.ok.injEq] at h
          subst h
          exact le_rfl
        · split at h
          · exact absurd h (by simp)
          · rename_i slots hps
            split at h
            · exact absurd h (by simp)
            · rename_i slots' hit
              simp only [Except.ok.injEq] at h
              subst h
              cases cs with
              | nil =>
                rename_i hcons
                exact absurd hcons (by simp [elemsOf])
              | cons c0 rest0 =>
                have hb0 : slotsBound (depthMaxList (c0 :: rest0)) slots :=
                  fun n₀ hm => depthMaxList_mem_le n₀ (c0 :: rest0)
                    (pruneSlots_mem forced _ (c0 :: rest0) slots hps n₀ hm)
                have hb' : slotsBound (depthMaxList (c0 :: rest0)) slots' :=
                  iterE_bound (mcKeyFuel f cfg forced)
                    (fun c c' hc => ih cfg forced c c' hc) _ _ slots slots'
                    hit hb0
                rw [calc_depth_elem_cons]
                cases hds : slots'.reduceOption with
                | nil => simp [calc_depth]
                | cons d0 ds0 =>
                  have hall : ∀ d ∈ (d0 :: ds0),
                      calc_depth d ≤ depthMaxList (c0 :: rest0) := by
                    intro d hd
                    rw [← hds] at hd
                    exact hb' d (List.reduceOption_mem_iff.mp hd)
                  rw [show calc_depth (Node.elem t (d0 :: ds0))
                    = depthMaxList (d0 :: ds0) + 1 from rfl]
                  have := depthMaxList_le (depthMaxList (c0 :: rest0))
                    (d0 :: ds0) hall
                  omega

/-- Any fuel strictly above the depth of the node computes the same
result as the canonical fuel `depth + 1`: the recursion of
`main_content` never needs more nested self-calls than the depth of the
subtree it processes. -/
theorem mcKeyFuel_canon :
    ∀ (f : Nat) (cfg : Config) (forced : Bool) (n : Node),
      calc_depth n < f →
      mcKeyFuel f cfg forced n
        = mcKeyFuel (calc_depth n + 1) cfg forced n := by
  intro f
  induction f using Nat.strong_induction_on with
  | _ f ihs =>
    intro cfg forced n hf
    match f, hf with
    | f + 1, hf =>
      by_cases hcan : f = calc_depth n
      · rw [hcan]
      · simp only [mcKeyFuel]
        cases n with
        | txt s => rfl
        | elem t cs =>
          simp only [mcBody]
          split
          · rfl
          · split
            · rfl
            · rename_i strat hstrat keys hkeys
              cases cs with
              | nil => exact absurd hkeys (by simp [elemsOf])
              | cons c0 rest0 =>
                have hD : depthMaxList (c0 :: rest0) + 1
                    = calc_depth (.elem t (c0 :: rest0)) := rfl
                split
                · rfl
                · rename_i slots hps
                  have hb0 : slotsBound (depthMaxList (c0 :: rest0)) slots :=
                    fun n₀ hm => depthMaxList_mem_le n₀ (c0 :: rest0)
                      (pruneSlots_mem forced _ (c0 :: rest0) slots hps n₀ hm)
                  have hflt : calc_depth (.elem t (c0 :: rest0)) ≤ f := by
                    omega
                  have hagree : ∀ c,
                      calc_depth c ≤ depthMaxList (c0 :: rest0) →
                      mcKeyFuel f cfg forced c
                        = mcKeyFuel (calc_depth (.elem t (c0 :: rest0)))
                            cfg forced c := by
                    intro c hcle
                    have hclt : calc_depth c
                        < calc_depth (.elem t (c0 :: rest0)) := by
                      rw [← hD]
                      omega
                    have h1 : mcKeyFuel f cfg forced c
                        = mcKeyFuel (calc_depth c + 1) cfg forced c := by
                      apply ihs f (by omega) cfg forced c
                      omega
                    have h2 : mcKeyFuel (calc_depth (.elem t (c0 :: rest0)))
                        cfg forced c
                        = mcKeyFuel (calc_depth c + 1) cfg forced c := by
                      apply ihs (calc_depth (.elem t (c0 :: rest0)))
                        (by omega) cfg forced c hclt
                    rw [h1, h2]
                  rw [iterE_congr (mcKeyFuel f cfg forced)
                    (mcKeyFuel (calc_depth (.elem t (c0 :: rest0))) cfg forced)
                    (depthMaxList (c0 :: rest0)) hagree
                    (fun c c' hc => mcKeyFuel_depth_le f cfg forced c c' hc)
                    (elemsOf (c0 :: rest0)).length slots hb0]

/-- With fuel strictly above the depth, the recursion never exhausts
its fuel. -/
theorem mcKeyFuel_no_fuel_err :
    ∀ (f : Nat) (cfg : Config) (forced : Bool) (n : Node),
      calc_depth n < f → mcKeyFuel f cfg forced n ≠ .error .fuel := by
  intro f
  induction f with
  | zero => intro cfg forced n hf; omega
  | succ f ih =>
    intro cfg forced n _
    simp only [mcKeyFuel]
    cases n with
    | txt s => simp [mcBody]
    | elem t cs =>
      simp only [mcBody]
      split
      · simp
      · split
        · simp
        · rename_i strat hstrat keys hkeys
          cases cs with
          | nil => exact absurd hkeys (by simp [elemsOf])
          | cons c0 rest0 =>
            split
            · rename_i e hpe
              have := pruneSlots_err forced _ (c0 :: rest0) e hpe
              subst this
              simp
            · rename_i slots hps
              have hb0 : slotsBound (depthMaxList (c0 :: rest0)) slots :=
                fun n₀ hm => depthMaxList_mem_le n₀ (c0 :: rest0)
                  (pruneSlots_mem forced _ (c0 :: rest0) slots hps n₀ hm)
              split
              · rename_i e hie
                intro hcontra
                simp only [Except.error.injEq] at hcontra
                subst hcontra
                rcases iterE_err (mcKeyFuel f cfg forced)
                  (fun c c' hc => mcKeyFuel_depth_le f cfg forced c c' hc)
                  (depthMaxList (c0 :: rest0))
                  (elemsOf (c0 :: rest0)).length slots .fuel hie hb0 with
                  ⟨c, hcle, hc⟩
                exact ih cfg forced c (by
                  have := calc_depth_child_lt t (c0 :: rest0)
                  rw [calc_depth_elem_cons] at *
                  omega) hc
              · simp

/-! ## Line-structure lemmas for the wrapper -/

/-- `linesOf` never returns the empty list. -/
theorem linesOf_ne_nil : ∀ s : List Char, linesOf s ≠ [] := by
  intro s
  cases s with
  | nil => simp [linesOf]
  | cons c rest =>
    simp only [linesOf]
    by_cases h : c = '\n'
    · rw [if_pos h]
      simp
    · rw [if_neg h]
      match linesOf rest with
      | [] => simp
      | l :: ls => simp

/-- A newline-free text is a single line. -/
theorem linesOf_free : ∀ w : List Char, '\n' ∉ w → linesOf w = [w] := by
  intro w
  induction w with
  | nil => intro _; rfl
  | cons c rest ih =>
    intro h
    have hc : ¬(c = '\n') := fun hh =>
      h (by rw [hh]; exact List.mem_cons_self _ _)
    simp only [linesOf]
    rw [if_neg hc, ih (fun hm => h (List.mem_cons_of_mem c hm))]

/-- `linesOf` past a newline. -/
theorem linesOf_cons_nl (z : List Char) :
    linesOf ('\n' :: z) = [] :: linesOf z := by
  simp [linesOf]

/-- `linesOf` past an ordinary character. -/
theorem linesOf_cons_ne (c : Char) (z : List Char) (h : ¬(c = '\n')) :
    linesOf (c :: z) = (c :: (linesOf z).headI) :: (linesOf z).tail := by
  simp only [linesOf]
  rw [if_neg h]
  match hz : linesOf z with
  | [] => exact absurd hz (linesOf_ne_nil z)
  | l :: ls => rfl

/-- Appending a newline closes the current line. -/
theorem linesOf_append_newline :
    ∀ x : List Char, linesOf (x ++ ['\n']) = linesOf x ++ [[]] := by
  intro x
  induction x with
  | nil => rfl
  | cons c x' ih =>
    by_cases hc : c = '\n'
    · subst hc
      rw [List.cons_append, linesOf_cons_nl, linesOf_cons_nl, ih,
        List.cons_append]
    · rw [List.cons_append, linesOf_cons_ne c _ hc, linesOf_cons_ne c _ hc, ih]
      match hx : linesOf x' with
      | [] => exact absurd hx (linesOf_ne_nil x')
      | l :: ls => simp

/-- Appending a newline-free text extends the current last line. -/
theorem linesOf_append_free :
    ∀ (x w : List Char), '\n' ∉ w →
      linesOf (x ++ w)
        = (linesOf x).dropLast ++ [(linesOf x).getLastD [] ++ w] := by
  intro x
  induction x with
  | nil =>
    intro w hw
    rw [List.nil_append, linesOf_free w hw]
    rfl
  | cons c x' ih =>
    intro w hw
    by_cases hc : c = '\n'
    · subst hc
      rw [List.cons_append, linesOf_cons_nl, linesOf_cons_nl, ih w hw]
      have hne := linesOf_ne_nil x'
      match hx : linesOf x' with
      | [] => exact absurd hx hne
      | l :: ls => simp [List.getLastD_cons]
    · rw [List.cons_append, linesOf_cons_ne c _ hc, linesOf_cons_ne c _ hc,
        ih w hw]
      match hx : linesOf x' with
      | [] => exact absurd hx (linesOf_ne_nil x')
      | l :: ls =>
        cases ls with
        | nil => simp
        | cons l2 ls2 => simp [List.getLastD_cons]

/-- The head of a nonempty list is a member. -/
theorem headI_mem_of_ne_nil (L : List (List Char)) (h : L ≠ []) :
    L.headI ∈ L := by
  cases L with
  | nil => exact absurd rfl h
  | cons l ls => exact List.mem_cons_self _ _

/-- Membership in a nonempty list is membership in the head or in the
tail. -/
theorem mem_headI_or_tail (L : List (List Char)) (l : List Char)
    (hne : L ≠ []) (h : l ∈ L) : l = L.headI ∨ l ∈ L.tail := by
  cases L with
  | nil => exact absurd rfl hne
  | cons x xs =>
    rcases List.mem_cons.mp h with h1 | h2
    · exact Or.inl h1
    · exact Or.inr h2

/-- The triple-newline collapse of the wrap output preserves the first
line, and every later line of the collapsed text is a (later) line of
the original: no two nonempty lines are ever merged. -/
theorem collapse_lines :
    ∀ (n : Nat) (s : List Char), s.length ≤ n →
      (linesOf (replaceCore '\n' ['\n', '\n'] ['\n'] s)).headI
          = (linesOf s).headI
      ∧ ∀ l ∈ (linesOf (replaceCore '\n' ['\n', '\n'] ['\n'] s)).tail,
          l ∈ (linesOf s).tail := by
  intro n
  induction n with
  | zero =>
    intro s hs
    have h0 : s = [] := List.eq_nil_of_length_eq_zero (Nat.le_zero.mp hs)
    subst h0
    rw [replaceCore_nil]
    exact ⟨rfl, by simp⟩
  | succ n ih =>
    intro s hs
    cases s with
    | nil =>
      rw [replaceCore_nil]
      exact ⟨rfl, by simp⟩
    | cons c rest =>
      by_cases hpre :
          (('\n' : Char) :: ['\n', '\n']).isPrefixOf (c :: rest) = true
      · rcases List.isPrefixOf_iff_prefix.mp hpre with ⟨s3, happ⟩
        simp only [List.cons_append, List.nil_append] at happ
        injection happ with hc happ2
        subst hc
        subst happ2
        have hlen3 : s3.length ≤ n := by
          simp only [List.length_cons] at hs
          omega
        rw [replaceCore_match '\n' ['\n', '\n'] ['\n'] '\n'
          ('\n' :: '\n' :: s3) hpre]
        rw [show (('\n' : Char) :: '\n' :: s3).drop
            (['\n', '\n'] : List Char).length = s3 from rfl]
        rw [show (['\n'] : List Char)
            ++ replaceCore '\n' ['\n', '\n'] ['\n'] s3
          = '\n' :: replaceCore '\n' ['\n', '\n'] ['\n'] s3 from rfl]
        rw [linesOf_cons_nl, linesOf_cons_nl, linesOf_cons_nl,
          linesOf_cons_nl]
        refine ⟨rfl, ?_⟩
        intro l hl
        simp only [List.tail_cons] at hl ⊢
        rcases ih s3 hlen3 with ⟨ihh, iht⟩
        rcases mem_headI_or_tail _ l (linesOf_ne_nil _) hl with h1 | h2
        · rw [ihh] at h1
          have : l ∈ linesOf s3 := by
            rw [h1]
            exact headI_mem_of_ne_nil _ (linesOf_ne_nil s3)
          exact List.mem_cons_of_mem _ (List.mem_cons_of_mem _ this)
        · have : l ∈ linesOf s3 := List.tail_subset _ (iht l h2)
          exact List.mem_cons_of_mem _ (List.mem_cons_of_mem _ this)
      · have hpre' : (('\n' : Char) :: ['\n', '\n']).isPrefixOf (c :: rest)
            = false := by
          rw [Bool.eq_false_iff]
          exact hpre
        rw [replaceCore_no_match '\n' ['\n', '\n'] ['\n'] c rest hpre']
        have hlen : rest.length ≤ n := by
          simp only [List.length_cons] at hs
          omega
        rcases ih rest hlen with ⟨ihh, iht⟩
        by_cases hc : c = '\n'
        · subst hc
          rw [linesOf_cons_nl, linesOf_cons_nl]
          refine ⟨rfl, ?_⟩
          intro l hl
          simp only [List.tail_cons] at hl ⊢
          rcases mem_headI_or_tail _ l (linesOf_ne_nil _) hl with h1 | h2
          · rw [ihh] at h1
            rw [h1]
            exact headI_mem_of_ne_nil _ (linesOf_ne_nil rest)
          · exact List.tail_subset _ (iht l h2)
        · rw [linesOf_cons_ne c _ hc, linesOf_cons_ne c _ hc]
          refine ⟨by simp [ihh], ?_⟩
          intro l hl
          simp only [List.tail_cons] at hl ⊢
          exact iht l hl

/-- A url token is nonempty and contains no newline (its run is
nonspace). -/
theorem urlToken_token (s tok rest : List Char)
    (h : urlToken s = some (tok, rest)) : tok ≠ [] ∧ '\n' ∉ tok := by
  cases s with
  | nil => exact absurd h (by simp [urlToken])
  | cons c s' =>
    simp only [urlToken] at h
    split at h
    · split at h
      · exact absurd h (by simp)
      · rename_i sch rest2 hsch
        have hsch2 : sch = "https://".toList ∨ sch = "http://".toList := by
          unfold urlScheme at hsch
          split at hsch
          · simp only [Option.some.injEq, Prod.mk.injEq] at hsch
            exact Or.inl hsch.1.symm
          · split at hsch
            · simp only [Option.some.injEq, Prod.mk.injEq] at hsch
              exact Or.inr hsch.1.symm
            · exact absurd hsch (by simp)
        unfold urlAfterScheme at h
        split at h
        · exact absurd h (by simp)
        · rename_i k hk
          simp only [Option.some.injEq, Prod.mk.injEq] at h
          obtain ⟨htok, -⟩ := h
          rw [← htok]
          refine ⟨by simp, ?_⟩
          intro hmem
          rcases List.mem_cons.mp hmem with h1 | h2
          · exact absurd h1 (by decide)
          · rcases List.mem_append.mp h2 with h3 | h4
            · rcases hsch2 with rfl | rfl
              · exact absurd h3 (by decide)
              · exact absurd h3 (by decide)
            · rcases List.mem_append.mp h4 with h5 | h6
              · have hrun : '\n' ∈ rest2.takeWhile (fun c => !(pyIsSpace c)) :=
                  List.take_subset _ _ h5
                have := List.mem_takeWhile_imp hrun
                simp [pyIsSpace] at this
              · exact absurd h6 (by decide)
    · exact absurd h (by simp)

/-- Every token of the scan is nonempty, and the only token containing
a newline is the single-character newline token. -/
theorem tokenizeF_tokens :
    ∀ (fuel : Nat) (s t : List Char), t ∈ tokenizeF fuel s →
      t ≠ [] ∧ ('\n' ∈ t → t = ['\n']) := by
  intro fuel
  induction fuel with
  | zero => intro s t ht; exact absurd ht (by simp [tokenizeF])
  | succ fuel ih =>
    intro s t ht
    cases s with
    | nil => exact absurd ht (by simp [tokenizeF])
    | cons c rest =>
      simp only [tokenizeF] at ht
      cases hu : urlToken (c :: rest) with
      | some pr =>
        obtain ⟨tok, rest'⟩ := pr
        rw [hu] at ht
        dsimp only at ht
        rcases List.mem_cons.mp ht with rfl | ht'
        · have hurl := urlToken_token _ _ _ hu
          exact ⟨hurl.1, fun hm => absurd hm hurl.2⟩
        · exact ih rest' t ht'
      | none =>
        rw [hu] at ht
        dsimp only at ht
        by_cases hw : isWordChar c = true
        · rw [if_pos hw] at ht
          rcases List.mem_cons.mp ht with rfl | ht'
          · constructor
            · rw [List.takeWhile_cons_of_pos hw]
              simp
            · intro hm
              have := List.mem_takeWhile_imp hm
              rw [show isWordChar '\n' = false from by decide] at this
              exact absurd this (by simp)
          · exact ih _ t ht'
        · rw [if_neg hw] at ht
          by_cases hp : (pyIsSpace c || isPunct c) = true
          · rw [if_pos hp] at ht
            rcases List.mem_cons.mp ht with rfl | ht'
            · refine ⟨by simp, ?_⟩
              intro hm
              rcases List.mem_cons.mp hm with h1 | h2
              · rw [← h1]
              · exact absurd h2 (by simp)
            · exact ih _ t ht'
          · rw [if_neg hp] at ht
            exact ih _ t ht

/-- One step of the wrapping loop preserves the invariant, for any
token of the scan (nonempty would also hold but is not needed). -/
theorem wrapStep_inv (maxLen : Nat) (hm : 1 ≤ maxLen)
    (allT : List (List Char)) (out : List Char) (len0 : Nat)
    (tok : List Char) (htok : tok ∈ allT)
    (hnl : '\n' ∈ tok → tok = ['\n'])
    (hinv : wrapInv maxLen allT (out, len0)) :
    wrapInv maxLen allT (wrapStep maxLen (out, len0) tok) := by
  obtain ⟨hlines, hlast⟩ := hinv
  simp only at hlines hlast
  unfold wrapStep
  dsimp only
  by_cases hwnl : (if len0 = 1 then pyLstrip tok else tok) = ['\n']
  · -- the token is a newline reached mid-line
    have hA : tok = ['\n'] ∧ ¬(len0 = 1) := by
      by_cases h1 : len0 = 1
      · rw [if_pos h1] at hwnl
        have hmem : '\n' ∈ pyLstrip tok := by
          rw [hwnl]
          exact List.mem_cons_self _ _
        have htk := hnl ((List.dropWhile_sublist _).subset hmem)
        rw [htk] at hwnl
        exact absurd hwnl (by decide)
      · rw [if_neg h1] at hwnl
        exact ⟨hwnl, h1⟩
    rw [if_neg hA.2, hA.1]
    rw [if_pos (rfl : (['\n'] : List Char) = ['\n'])]
    dsimp only
    rw [if_neg (by omega : ¬(maxLen < 1))]
    by_cases hm1 : 1 = maxLen
    · rw [if_pos hm1]
      constructor
      · intro l hl
        simp only at hl
        rw [show (out ++ ['\n']) ++ (['\n'] ++ ['\n'])
            = ((out ++ ['\n']) ++ ['\n']) ++ ['\n'] by simp] at hl
        rw [linesOf_append_newline, linesOf_append_newline,
          linesOf_append_newline] at hl
        rcases List.mem_append.mp hl with hl1 | hl2
        · rcases List.mem_append.mp hl1 with hl3 | hl4
          · rcases List.mem_append.mp hl3 with hl5 | hl6
            · exact hlines l hl5
            · rw [List.mem_singleton.mp hl6]
              exact Or.inl (by simp)
          · rw [List.mem_singleton.mp hl4]
            exact Or.inl (by simp)
        · rw [List.mem_singleton.mp hl2]
          exact Or.inl (by simp)
      · simp only
        rw [show (out ++ ['\n']) ++ (['\n'] ++ ['\n'])
            = ((out ++ ['\n']) ++ ['\n']) ++ ['\n'] by simp]
        rw [linesOf_append_newline]
        simp
    · rw [if_neg hm1]
      constructor
      · intro l hl
        simp only at hl
        rw [show (out ++ ['\n']) ++ ['\n']
            = (out ++ ['\n']) ++ ['\n'] from rfl] at hl
        rw [linesOf_append_newline, linesOf_append_newline] at hl
        rcases List.mem_append.mp hl with hl1 | hl2
        · rcases List.mem_append.mp hl1 with hl3 | hl4
          · exact hlines l hl3
          · rw [List.mem_singleton.mp hl4]
            exact Or.inl (by simp)
        · rw [List.mem_singleton.mp hl2]
          exact Or.inl (by simp)
      · simp only
        rw [linesOf_append_newline, linesOf_append_newline]
        simp
  · -- an ordinary token (or a left-stripped one)
    have hwfree : '\n' ∉ (if len0 = 1 then pyLstrip tok else tok) := by
      by_cases h1 : len0 = 1
      · rw [if_pos h1] at hwnl ⊢
        intro hmem
        have htk := hnl ((List.dropWhile_sublist _).subset hmem)
        rw [htk] at hmem
        exact absurd hmem (by decide)
      · rw [if_neg h1] at hwnl ⊢
        intro hmem
        exact hwnl (hnl hmem)
    have hwlen : (if len0 = 1 then pyLstrip tok else tok).length
        ≤ tok.length := by
      by_cases h1 : len0 = 1
      · rw [if_pos h1]
        exact (List.dropWhile_sublist _).length_le
      · rw [if_neg h1]
    have hwok : okLine maxLen allT (if len0 = 1 then pyLstrip tok else tok) := by
      by_cases h1 : len0 = 1
      · rw [if_pos h1]
        exact Or.inr ⟨tok, htok, Or.inr rfl⟩
      · rw [if_neg h1]
        exact Or.inr ⟨tok, htok, Or.inl rfl⟩
    rw [if_neg hwnl]
    dsimp only
    by_cases hov : maxLen < len0 + tok.length
    · rw [if_pos hov]
      constructor
      · intro l hl
        dsimp only at hl
        rw [show out ++ '\n' :: (if len0 = 1 then pyLstrip tok else tok)
            = (out ++ ['\n']) ++ (if len0 = 1 then pyLstrip tok else tok)
          by simp] at hl
        rw [linesOf_append_free _ _ hwfree, linesOf_append_newline] at hl
        rcases List.mem_append.mp hl with hl1 | hl2
        · rw [List.dropLast_concat] at hl1
          exact hlines l hl1
        · rw [List.mem_singleton.mp hl2]
          have hgl : (linesOf out ++ [[]]).getLastD [] = ([] : List Char) := by
            simp
          rw [hgl, List.nil_append]
          exact hwok
      · dsimp only
        rw [show out ++ '\n' :: (if len0 = 1 then pyLstrip tok else tok)
            = (out ++ ['\n']) ++ (if len0 = 1 then pyLstrip tok else tok)
          by simp]
        rw [linesOf_append_free _ _ hwfree, linesOf_append_newline]
        simp
    · rw [if_neg hov]
      by_cases heq : len0 + tok.length = maxLen
      · rw [if_pos heq]
        constructor
        · intro l hl
          dsimp only at hl
          rw [show out ++ ((if len0 = 1 then pyLstrip tok else tok) ++ ['\n'])
              = (out ++ (if len0 = 1 then pyLstrip tok else tok)) ++ ['\n']
            by simp] at hl
          rw [linesOf_append_newline, linesOf_append_free _ _ hwfree] at hl
          rcases List.mem_append.mp hl with hl1 | hl2
          · rcases List.mem_append.mp hl1 with hl3 | hl4
            · exact hlines l (List.dropLast_subset _ hl3)
            · rw [List.mem_singleton.mp hl4]
              refine Or.inl ?_
              rw [List.length_append]
              omega
          · rw [List.mem_singleton.mp hl2]
            exact Or.inl (by simp)
        · dsimp only
          rw [show out ++ ((if len0 = 1 then pyLstrip tok else tok) ++ ['\n'])
              = (out ++ (if len0 = 1 then pyLstrip tok else tok)) ++ ['\n']
            by simp]
          rw [linesOf_append_newline]
          simp
      · rw [if_neg heq]
        constructor
        · intro l hl
          dsimp only at hl
          rw [linesOf_append_free _ _ hwfree] at hl
          rcases List.mem_append.mp hl with hl1 | hl2
          · exact hlines l (List.dropLast_subset _ hl1)
          · rw [List.mem_singleton.mp hl2]
            refine Or.inl ?_
            rw [List.length_append]
            omega
        · dsimp only
          rw [linesOf_append_free _ _ hwfree]
          rw [show ((linesOf out).dropLast
              ++ [(linesOf out).getLastD []
                ++ (if len0 = 1 then pyLstrip tok else tok)]).getLastD []
            = (linesOf out).getLastD []
                ++ (if len0 = 1 then pyLstrip tok else tok) by simp]
          rw [List.length_append]
          omega

/-- The wrapping loop preserves the invariant on any token list of the
scan. -/
theorem wrapFold_inv (maxLen : Nat) (hm : 1 ≤ maxLen)
    (allT : List (List Char)) :
    ∀ (toks : List (List Char)) (st : List Char × Nat),
      (∀ t ∈ toks, t ∈ allT ∧ ('\n' ∈ t → t = ['\n'])) →
      wrapInv maxLen allT st →
      wrapInv maxLen allT (toks.foldl (wrapStep maxLen) st) := by
  intro toks
  induction toks with
  | nil => intro st _ hinv; exact hinv
  | cons tok rest ih =>
    intro st hts hinv
    obtain ⟨out, len0⟩ := st
    have h1 := hts tok (List.mem_cons_self _ _)
    exact ih (wrapStep maxLen (out, len0) tok)
      (fun t ht => hts t (List.mem_cons_of_mem _ ht))
      (wrapStep_inv maxLen hm allT out len0 tok h1.1 h1.2 hinv)

/-! ## The claims -/

/-- C2: for every input text and positive width, each line of the
string produced by the wrapping stage of `prepare_text` is at most
`maxLen` characters long, except that a line may consist of a single
atomic token of the scan (possibly with leading whitespace stripped at
line start), which is longer only when the token itself is; such a
token appears unsplit on a line of its own. -/
theorem C2_line_length_bound (text : List Char) (maxLen : Nat)
    (hm : 0 < maxLen) :
    ∀ l ∈ linesOf (wrapStage text maxLen),
      l.length ≤ maxLen ∨ ∃ t ∈ tokenize text, l = t ∨ l = pyLstrip t := by
  intro l hl
  have hl' : l ∈ linesOf (wrapTokens maxLen (tokenize text)) := by
    unfold wrapStage at hl
    rw [show replaceAll ['\n', '\n', '\n'] ['\n']
        (wrapTokens maxLen (tokenize text))
      = replaceCore '\n' ['\n', '\n'] ['\n']
        (wrapTokens maxLen (tokenize text)) from rfl] at hl
    have hcl := collapse_lines (wrapTokens maxLen (tokenize text)).length
      (wrapTokens maxLen (tokenize text)) le_rfl
    rcases mem_headI_or_tail _ l (linesOf_ne_nil _) hl with h1 | h2
    · rw [hcl.1] at h1
      rw [h1]
      exact headI_mem_of_ne_nil _ (linesOf_ne_nil _)
    · exact List.tail_subset _ (hcl.2 l h2)
  have hinit : wrapInv maxLen (tokenize text) ([], 1) := by
    constructor
    · intro l' hl0
      have : l' = [] := by
        simp only [linesOf] at hl0
        exact List.mem_singleton.mp hl0
      rw [this]
      exact Or.inl (Nat.zero_le _)
    · simp [linesOf]
  have hinv := wrapFold_inv maxLen hm (tokenize text) (tokenize text)
    ([], 1)
    (fun t ht => ⟨ht, (tokenizeF_tokens text.length text t ht).2⟩)
    hinit
  exact hinv.1 l hl'

/-- Witness for C2 at a concrete input. -/
theorem C2_line_length_bound_witness :
    (0 < 5)
    ∧ ∀ l ∈ linesOf (wrapStage ("ab cd".toList) 5),
        l.length ≤ 5 ∨ ∃ t ∈ tokenize ("ab cd".toList),
          l = t ∨ l = pyLstrip t :=
  ⟨by decide, C2_line_length_bound ("ab cd".toList) 5 (by decide)⟩

/-- C3: `main_content` terminates on every finite tree and the depth of
its recursive self-calls is bounded by the depth of the input tree: any
fuel of at least `calc_depth soup` nested self-calls computes the same
result as the canonical run, and the fuel is never exhausted. -/
theorem C3_terminates_within_tree_depth (cfg : Config) (forced : Bool)
    (soup : Node) (f : Nat) (h : calc_depth soup ≤ f) :
    mainContentFuel f cfg forced soup = main_content cfg forced soup
    ∧ mainContentFuel f cfg forced soup ≠ .error .fuel := by
  unfold main_content
  cases soup with
  | txt s => exact ⟨rfl, by simp [mainContentFuel]⟩
  | elem t cs =>
    simp only [mainContentFuel]
    cases hstrat : cfg.STRATEGY with
    | none => exact ⟨rfl, by simp⟩
    | some strat =>
      cases cs with
      | nil => exact ⟨rfl, by simp [stepSlots]⟩
      | cons c0 rest0 =>
        have hD : calc_depth (Node.elem t (c0 :: rest0))
            = depthMaxList (c0 :: rest0) + 1 := rfl
        have hb0 : slotsBound (depthMaxList (c0 :: rest0))
            ((c0 :: rest0).map some) := by
          intro n₀ hm
          rcases List.mem_map.mp hm with ⟨x, hx, hxe⟩
          simp only [Option.some.injEq] at hxe
          subst hxe
          exact depthMaxList_mem_le _ _ hx
        have hagree : ∀ c, calc_depth c ≤ depthMaxList (c0 :: rest0) →
            mcKeyFuel f cfg forced c
              = mcKeyFuel (calc_depth (Node.elem t (c0 :: rest0)))
                  cfg forced c := by
          intro c hcle
          rw [mcKeyFuel_canon f cfg forced c (by omega),
            mcKeyFuel_canon (calc_depth (Node.elem t (c0 :: rest0)))
              cfg forced c (by omega)]
        have hdle : ∀ c c',
            mcKeyFuel (calc_depth (Node.elem t (c0 :: rest0))) cfg forced c
              = .ok c' → calc_depth c' ≤ calc_depth c :=
          fun c c' hc =>
            mcKeyFuel_depth_le (calc_depth (Node.elem t (c0 :: rest0)))
              cfg forced c c' hc
        rw [stepSlots_congr (mcKeyFuel f cfg forced)
          (mcKeyFuel (calc_depth (Node.elem t (c0 :: rest0))) cfg forced)
          (depthMaxList (c0 :: rest0)) hagree ((c0 :: rest0).map some) hb0]
        cases hs1 : stepSlots
            (mcKeyFuel (calc_depth (Node.elem t (c0 :: rest0))) cfg forced)
            ((c0 :: rest0).map some) with
        | error e =>
          refine ⟨rfl, ?_⟩
          intro hcontra
          simp only [Except.error.injEq] at hcontra
          subst hcontra
          rcases stepSlots_err _ _ _ hs1 with ⟨c, hmem, hc⟩
          refine mcKeyFuel_no_fuel_err _ cfg forced c ?_ hc
          have := hb0 c hmem
          omega
        | ok slots₁ =>
          have hb1 : slotsBound (depthMaxList (c0 :: rest0)) slots₁ :=
            stepSlots_bound _ hdle _ _ _ hs1 hb0
          dsimp only
          rw [stepSlots_congr (mcKeyFuel f cfg forced)
            (mcKeyFuel (calc_depth (Node.elem t (c0 :: rest0))) cfg forced)
            (depthMaxList (c0 :: rest0)) hagree slots₁ hb1]
          cases hs2 : stepSlots
              (mcKeyFuel (calc_depth (Node.elem t (c0 :: rest0))) cfg forced)
              slots₁ with
          | error e =>
            refine ⟨rfl, ?_⟩
            intro hcontra
            simp only [Except.error.injEq] at hcontra
            subst hcontra
            rcases stepSlots_err _ _ _ hs2 with ⟨c, hmem, hc⟩
            refine mcKeyFuel_no_fuel_err _ cfg forced c ?_ hc
            have := hb1 c hmem
            omega
          | ok slots₂ => exact ⟨rfl, by simp⟩

/-- Witness for C3 at a concrete input. -/
theorem C3_terminates_within_tree_depth_witness :
    calc_depth (Node.elem "[document]"
      [Node.elem "body" [Node.elem "div" [Node.txt "x"]]]) ≤ 9
    ∧ mainContentFuel 9 ⟨some "CUSTOM", ⟨1, 2⟩⟩ false
        (Node.elem "[document]"
          [Node.elem "body" [Node.elem "div" [Node.txt "x"]]])
      = main_content ⟨some "CUSTOM", ⟨1, 2⟩⟩ false
        (Node.elem "[document]"
          [Node.elem "body" [Node.elem "div" [Node.txt "x"]]])
    ∧ mainContentFuel 9 ⟨some "CUSTOM", ⟨1, 2⟩⟩ false
        (Node.elem "[document]"
          [Node.elem "body" [Node.elem "div" [Node.txt "x"]]])
      ≠ .error .fuel :=
  ⟨by decide,
    (C3_terminates_within_tree_depth ⟨some "CUSTOM", ⟨1, 2⟩⟩ false
      (Node.elem "[document]"
        [Node.elem "body" [Node.elem "div" [Node.txt "x"]]]) 9 (by decide)).1,
    (C3_terminates_within_tree_depth ⟨some "CUSTOM", ⟨1, 2⟩⟩ false
      (Node.elem "[document]"
        [Node.elem "body" [Node.elem "div" [Node.txt "x"]]]) 9 (by decide)).2⟩

/-- C1 (counterexample): the claim that a `p`-tagged node present before
pruning is always present in the tree returned by `main_content` fails:
with `CUSTOM`/0.5 and `forced = False`, the shallow `div` wrapping the
only `p` (density 2 against threshold 2.5) is decomposed, and the `p`
disappears with it. -/
theorem C1_counterexample :
    containsTag "p" (.elem "[document]" [.elem "body"
      [.elem "div" [.elem "p" [.txt "hi"]],
       .elem "div" [.elem "div" [.elem "div" [.txt "x"]]]]]) = true
    ∧ main_content ⟨some "CUSTOM", ⟨1, 2⟩⟩ false
        (.elem "[document]" [.elem "body"
          [.elem "div" [.elem "p" [.txt "hi"]],
           .elem "div" [.elem "div" [.elem "div" [.txt "x"]]]]])
      = .ok (.elem "[document]" [.elem "body"
          [.elem "div" [.elem "div" [.elem "div" [.txt "x"]]]]])
    ∧ containsTag "p" (.elem "[document]" [.elem "body"
        [.elem "div" [.elem "div" [.elem "div" [.txt "x"]]]]]) = false :=
  ⟨by decide, by decide, by decide⟩

/-- C1 (amended): a `p`/`h1`/`h2`-tagged node is never itself the target
of `decompose` — a `main_content` call on any node, in any
configuration, preserves its number of content-tagged direct children —
but a content-tagged node may still disappear when a non-exempt
ancestor is decomposed. -/
theorem C1_content_children_preserved (f : Nat) (cfg : Config)
    (forced : Bool) (n n' : Node) (h : mcKeyFuel f cfg forced n = .ok n') :
    contentChildCount n' = contentChildCount n := by
  cases f with
  | zero => exact absurd h (by simp [mcKeyFuel])
  | succ f =>
    simp only [mcKeyFuel] at h
    cases n with
    | txt s =>
      simp only [mcBody, Except.ok.injEq] at h
      subst h
      rfl
    | elem t cs =>
      simp only [mcBody] at h
      split at h
      · simp only [Except.ok.injEq] at h
        subst h
        rfl
      · split at h
        · simp only [Except.ok.injEq] at h
          subst h
          rfl
        · split at h
          · exact absurd h (by simp)
          · rename_i slots hps
            split at h
            · exact absurd h (by simp)
            · rename_i slots' hit
              simp only [Except.ok.injEq] at h
              subst h
              have h1 := pruneSlots_content forced _ cs slots hps
              have h2 := iterE_content (mcKeyFuel f cfg forced)
                (fun c c' hc => (mcKeyFuel_tag f cfg forced c c' hc).1)
                (elemsOf cs).length slots slots' hit
              have e1 : contentChildCount (Node.elem t slots'.reduceOption)
                  = contentSlotCount slots' := rfl
              have e2 : contentChildCount (Node.elem t cs)
                  = (cs.filter (fun c => isContentTag c)).length := rfl
              rw [e1, e2, h2, h1]

/-- Witness for C1 (amended) at a concrete input. -/
theorem C1_content_children_preserved_witness :
    mcKeyFuel 2 ⟨some "CUSTOM", ⟨1, 2⟩⟩ false
      (.elem "body" [.elem "p" [.txt "x"], .elem "div" []])
      = .ok (.elem "body" [.elem "p" [.txt "x"]])
    ∧ contentChildCount (.elem "body" [.elem "p" [.txt "x"]])
      = contentChildCount (.elem "body" [.elem "p" [.txt "x"], .elem "div" []]) :=
  ⟨by decide, C1_content_children_preserved 2 ⟨some "CUSTOM", ⟨1, 2⟩⟩ false
    (.elem "body" [.elem "p" [.txt "x"], .elem "div" []])
    (.elem "body" [.elem "p" [.txt "x"]]) (by decide)⟩

/-- C4 (counterexample): with `CUSTOM`/1.0 the threshold is the sum over
the whole sibling set, so the first `div` — density 2, which equals or
exceeds 1, the sum of its siblings' densities — is still removed (2 <
2 + 1); the claim fails. -/
theorem C4_counterexample :
    calc_depth (.elem "div" [.elem "div" [.elem "div" []]]) = 2
    ∧ calc_depth (.elem "div" [.elem "div" []]) = 1
    ∧ main_content ⟨some "CUSTOM", ⟨1, 1⟩⟩ false
        (.elem "[document]" [.elem "body"
          [.elem "div" [.elem "div" [.elem "div" []]],
           .elem "div" [.elem "div" []]]])
      = .ok (.elem "[document]" [.elem "body" []]) :=
  ⟨by decide, by decide, by decide⟩

/-- C4 (amended): with `CUSTOM` and coefficient 1.0 the threshold is the
sum of the densities of the *entire* sibling set, the node included; a
node whose density equals or exceeds that sum (equivalently, all of its
siblings have density 0) is never removed by the deletion decision. -/
theorem C4_custom_unit_keeps_dominant (forced : Bool) (keys : List Node)
    (c : Node) (hc : c ∈ keys)
    (hge : ((keys.map calc_depth).sum : Int) ≤ (calc_depth c : Int)) :
    pruneSlot forced (levelAvg "CUSTOM" ⟨1, 1⟩ keys) c = .ok (some c) := by
  have havg : levelAvg "CUSTOM" ⟨1, 1⟩ keys
      = some ⟨((keys.map calc_depth).sum : Int) * 1, 1⟩ := by
    unfold levelAvg
    rw [if_neg (by decide), if_pos rfl]
  unfold pruneSlot
  by_cases hel : isElem c = true
  · rw [if_pos hel]
    by_cases hex : exempt forced c = true
    · rw [if_pos hex]
    · rw [if_neg hex, havg]
      have hlt : fracLtNat (calc_depth c)
          ⟨((keys.map calc_depth).sum : Int) * 1, 1⟩ = false := by
        unfold fracLtNat
        simp only [mul_one, decide_eq_false_iff_not, not_lt]
        exact hge
      dsimp only
      rw [hlt]
      rfl
  · rw [if_neg hel]

/-- Witness for C4 (amended) at a concrete input. -/
theorem C4_custom_unit_keeps_dominant_witness :
    (Node.elem "div" [.elem "div" []])
      ∈ [Node.elem "div" [.elem "div" []], Node.elem "span" []]
    ∧ ((([Node.elem "div" [.elem "div" []],
          Node.elem "span" []]).map calc_depth).sum : Int)
      ≤ (calc_depth (Node.elem "div" [.elem "div" []]) : Int)
    ∧ pruneSlot false (levelAvg "CUSTOM" ⟨1, 1⟩
        [Node.elem "div" [.elem "div" []], Node.elem "span" []])
        (Node.elem "div" [.elem "div" []])
      = .ok (some (Node.elem "div" [.elem "div" []])) :=
  ⟨by decide, by decide,
    C4_custom_unit_keeps_dominant false
      [Node.elem "div" [.elem "div" []], Node.elem "span" []]
      (Node.elem "div" [.elem "div" []]) (by decide) (by decide)⟩

/-- C5 (counterexample): the wrapping stage is not idempotent on its own
output: wrapping `"ab cd"` at width 5 yields `"ab \ncd"` (no token
longer than 5), and re-wrapping that output yields `"ab \n\ncd"`, which
differs. -/
theorem C5_counterexample :
    wrapStage ("ab cd".toList) 5 = "ab \ncd".toList
    ∧ wrapStage ("ab \ncd".toList) 5 ≠ "ab \ncd".toList :=
  ⟨by decide, by decide⟩

/-- C5 (amended): a line-break token reached mid-line is emitted twice
(once by the newline branch, once by the fall-through default append),
so re-wrapping already-wrapped text inserts a blank line at each wrap
break: re-wrapping `"ab \ncd"` at width 5 yields `"ab \n\ncd"`, and that
string is a fixed point of the wrapper. -/
theorem C5_rewrap_doubles_breaks :
    wrapStage ("ab \ncd".toList) 5 = "ab \n\ncd".toList
    ∧ wrapStage ("ab \n\ncd".toList) 5 = "ab \n\ncd".toList :=
  ⟨by decide, by decide⟩

/-- C6 (counterexample): the paragraph-splitting step uses
`str.replace`, which rewrites *every* occurrence: on running text
`"ab ab"` with paragraph text `"ab"`, both occurrences are surrounded,
unlike the first-occurrence-only behaviour the claim describes. -/
theorem C6_counterexample :
    split_paragraph ("ab ab".toList) ("ab".toList) = "\nab\n \nab\n".toList
    ∧ surroundFirst ("ab ab".toList) ("ab".toList) = "\nab\n ab".toList
    ∧ split_paragraph ("ab ab".toList) ("ab".toList)
      ≠ surroundFirst ("ab ab".toList) ("ab".toList) :=
  ⟨by decide, by decide, by decide⟩

/-- C6 (amended): the paragraph-splitting step surrounds *every*
(left-to-right, non-overlapping) occurrence of the trimmed paragraph
text with line-break markers, not only the first: on a running text
containing two occurrences separated by text free of the pattern's head
character, both are surrounded. -/
theorem C6_every_occurrence_surrounded (p : List Char) (d : Char)
    (ds a b c' : List Char) (htr : pyStrip p = d :: ds)
    (ha : d ∉ a) (hb : d ∉ b) (hc : d ∉ c') :
    split_paragraph (a ++ ((d :: ds) ++ (b ++ ((d :: ds) ++ c')))) p
      = a ++ (('\n' :: ((d :: ds) ++ ['\n']))
          ++ (b ++ (('\n' :: ((d :: ds) ++ ['\n'])) ++ c'))) := by
  have hp : p ≠ [] := by
    intro h
    rw [h] at htr
    simp [pyStrip] at htr
  unfold split_paragraph
  rw [if_neg hp, htr]
  show replaceCore d ds ('\n' :: ((d :: ds) ++ ['\n'])) _ = _
  rw [replaceCore_skip d ds _ a _ ha]
  rw [replaceCore_hit]
  rw [replaceCore_skip d ds _ b _ hb]
  rw [replaceCore_hit]
  rw [replaceCore_id d ds _ c' hc]

/-- Witness for C6 (amended) at a concrete input. -/
theorem C6_every_occurrence_surrounded_witness :
    pyStrip (" ab ".toList) = 'a' :: "b".toList
    ∧ 'a' ∉ "x ".toList ∧ 'a' ∉ " y ".toList ∧ 'a' ∉ " z".toList
    ∧ split_paragraph ("x ".toList ++ (('a' :: "b".toList)
        ++ (" y ".toList ++ (('a' :: "b".toList) ++ " z".toList))))
        (" ab ".toList)
      = "x ".toList ++ (('\n' :: (('a' :: "b".toList) ++ ['\n']))
          ++ (" y ".toList ++ (('\n' :: (('a' :: "b".toList) ++ ['\n']))
            ++ " z".toList))) :=
  ⟨by decide, by decide, by decide, by decide,
    C6_every_occurrence_surrounded (" ab ".toList) 'a' "b".toList
      "x ".toList " y ".toList " z".toList
      (by decide) (by decide) (by decide) (by decide)⟩

/-- C7 (counterexample): the lookup of `_get_urls` is keyed by the
bracketed target, not by the display text: two anchors sharing the
display text `About` with distinct targets both survive, and annotation
inserts *both* bracketed urls after the text (the second substitution
matches inside the first's output), not only the last one. -/
theorem C7_counterexample :
    get_urls [⟨some ("/a".toList), "About".toList⟩,
              ⟨some ("/b".toList), "About".toList⟩]
        ("http://ex.com/pg".toList)
      = .ok [("[http://ex.com/a]".toList, "About".toList),
             ("[http://ex.com/b]".toList, "About".toList)]
    ∧ add_urls ("see About here".toList)
        [("[http://ex.com/a]".toList, "About".toList),
         ("[http://ex.com/b]".toList, "About".toList)]
      = "see About [http://ex.com/b] [http://ex.com/a] here".toList
    ∧ containsSub ("[http://ex.com/a]".toList)
        ("see About [http://ex.com/b] [http://ex.com/a] here".toList) = true :=
  ⟨by decide, by decide, by decide⟩

/-- C7 (amended): the lookup built by `_get_urls` is keyed by the
bracketed absolute url and its values are the display texts, so two
anchors with identical display text but distinct absolute targets each
keep an entry (last-write-wins applies only to identical targets). -/
theorem C7_lookup_keyed_by_url (t u₁ u₂ dom d : List Char)
    (hdom : domain_name dom = .ok d)
    (h1 : containsSub ("http".toList) u₁ = true)
    (h2 : containsSub ("http".toList) u₂ = true)
    (hne : u₁ ≠ u₂) :
    get_urls [⟨some u₁, t⟩, ⟨some u₂, t⟩] dom
      = .ok [('[' :: (u₁ ++ [']']), t), ('[' :: (u₂ ++ [']']), t)] := by
  unfold get_urls
  rw [hdom]
  have hb1 : bracketKey d u₁ = '[' :: (u₁ ++ [']']) := by
    unfold bracketKey
    rw [if_pos h1]
  have hb2 : bracketKey d u₂ = '[' :: (u₂ ++ [']']) := by
    unfold bracketKey
    rw [if_pos h2]
  have hkne : ¬(('[' : Char) :: (u₁ ++ [']']) = '[' :: (u₂ ++ [']'])) := by
    intro h
    apply hne
    have h' := (List.cons.injEq _ _ _ _).mp h
    exact (List.append_left_inj _).mp h'.2
  show getUrlsLoop d [] _ = _
  unfold getUrlsLoop
  dsimp only
  rw [hb1]
  unfold getUrlsLoop
  dsimp only
  rw [hb2]
  unfold getUrlsLoop
  unfold updateAssoc
  simp [hkne]

/-- Witness for C7 (amended) at a concrete input. -/
theorem C7_lookup_keyed_by_url_witness :
    domain_name ("http://ex.com".toList) = .ok ("http://ex.com".toList)
    ∧ containsSub ("http".toList) ("http://ex.com/a".toList) = true
    ∧ containsSub ("http".toList) ("http://ex.com/b".toList) = true
    ∧ ("http://ex.com/a".toList ≠ "http://ex.com/b".toList)
    ∧ get_urls [⟨some ("http://ex.com/a".toList), "About".toList⟩,
                ⟨some ("http://ex.com/b".toList), "About".toList⟩]
        ("http://ex.com".toList)
      = .ok [('[' :: ("http://ex.com/a".toList ++ [']']), "About".toList),
             ('[' :: ("http://ex.com/b".toList ++ [']']), "About".toList)] :=
  ⟨by decide, by decide, by decide, by decide,
    C7_lookup_keyed_by_url ("About".toList) ("http://ex.com/a".toList)
      ("http://ex.com/b".toList) ("http://ex.com".toList)
      ("http://ex.com".toList) (by decide) (by decide) (by decide) (by decide)⟩

/-- C8 (counterexample): an anchor with no `href` attribute makes
`_get_urls` raise `KeyError` (`url['href']` on a missing attribute);
annotation fails instead of falling back to the bare domain. -/
theorem C8_counterexample :
    get_urls [⟨none, "About".toList⟩] ("http://ex.com".toList)
      = .error .keyError :=
  by decide

/-- C8 (amended): link annotation *does* fail on an anchor with no
target attribute: as soon as the anchor loop reaches such an anchor it
raises `KeyError`, and no lookup is returned. -/
theorem C8_missing_href_raises (anchors : List Anchor) (dom d : List Char)
    (hdom : domain_name dom = .ok d)
    (hex : ∃ a ∈ anchors, a.href = none) :
    get_urls anchors dom = .error .keyError := by
  unfold get_urls
  rw [hdom]
  exact getUrlsLoop_keyError d anchors [] hex

/-- Witness for C8 (amended) at a concrete input. -/
theorem C8_missing_href_raises_witness :
    domain_name ("http://ex.com".toList) = .ok ("http://ex.com".toList)
    ∧ (∃ a ∈ [(⟨some ("/a".toList), "x".toList⟩ : Anchor),
              ⟨none, "y".toList⟩], a.href = none)
    ∧ get_urls [(⟨some ("/a".toList), "x".toList⟩ : Anchor),
                ⟨none, "y".toList⟩] ("http://ex.com".toList)
      = .error .keyError :=
  ⟨by decide, by decide,
    C8_missing_href_raises [⟨some ("/a".toList), "x".toList⟩,
      ⟨none, "y".toList⟩] ("http://ex.com".toList)
      ("http://ex.com".toList) (by decide) (by decide)⟩

/-- C9 (counterexample): with the unrecognised strategy `"AVERAGE"` no
configuration error is raised at all on a document whose evaluated
sibling sets are empty: `main_content` completes and returns the tree
unchanged, so no fatal error is detected before processing begins. -/
theorem C9_counterexample :
    main_content ⟨some "AVERAGE", ⟨1, 2⟩⟩ false
      (.elem "[document]" [.elem "body" []])
      = .ok (.elem "[document]" [.elem "body" []]) :=
  by decide

/-- C9 (amended): the code performs no strategy validation before
processing: an unrecognised declared strategy is only detected when the
deletion loop first reaches a non-exempt element key, mid-processing,
where the unassigned threshold variable raises `UnboundLocalError`; a
run that never reaches such a key completes silently. -/
theorem C9_unrecognized_strategy_fails_midrun (cfg : Config) (forced : Bool)
    (s : String) (hs : cfg.STRATEGY = some s)
    (h1 : s ≠ "AVG") (h2 : s ≠ "CUSTOM")
    (t : String) (cs : List Node) (f : Nat)
    (hex : ∃ c ∈ cs, isElem c = true ∧ exempt forced c = false) :
    mcKeyFuel (f + 1) cfg forced (.elem t cs) = .error .unboundLocal := by
  obtain ⟨strat, coef⟩ := cfg
  simp only at hs
  subst hs
  simp only [mcKeyFuel, mcBody]
  have hne : elemsOf cs ≠ [] := by
    rcases hex with ⟨c, hmem, hel, _⟩
    intro h0
    have hmemf : c ∈ elemsOf cs := List.mem_filter.mpr ⟨hmem, hel⟩
    rw [h0] at hmemf
    exact absurd hmemf (by simp)
  match he : elemsOf cs with
  | [] => exact absurd he hne
  | k :: ks =>
    rw [levelAvg_other s coef (k :: ks) h1 h2]
    rw [pruneSlots_unbound forced cs hex]

/-- Witness for C9 (amended) at a concrete input. -/
theorem C9_unrecognized_strategy_fails_midrun_witness :
    (⟨some "AVERAGE", ⟨1, 2⟩⟩ : Config).STRATEGY = some "AVERAGE"
    ∧ ("AVERAGE" ≠ "AVG") ∧ ("AVERAGE" ≠ "CUSTOM")
    ∧ (∃ c ∈ [Node.elem "div" []], isElem c = true ∧ exempt false c = false)
    ∧ mcKeyFuel 1 ⟨some "AVERAGE", ⟨1, 2⟩⟩ false
        (.elem "body" [.elem "div" []]) = .error .unboundLocal :=
  ⟨rfl, by decide, by decide, by decide,
    C9_unrecognized_strategy_fails_midrun ⟨some "AVERAGE", ⟨1, 2⟩⟩ false
      "AVERAGE" rfl (by decide) (by decide) "body" [Node.elem "div" []] 0
      (by decide)⟩

/-- C10: a paragraph whose flattened text is non-empty but all
whitespace is not skipped (the guard compares the untrimmed text with
the empty string), its trimmed text is the empty pattern, and
`str.replace` with an empty pattern inserts the pair of line-break
markers at every gap of the running text: before every character and
after the last. -/
theorem C10_whitespace_paragraph_inserts_breaks (s p : List Char)
    (hne : p ≠ []) (hsp : ∀ c ∈ p, pyIsSpace c = true) :
    split_paragraph s p
      = s.foldr (fun c acc => '\n' :: '\n' :: (c :: acc)) ['\n', '\n'] := by
  unfold split_paragraph
  rw [if_neg hne, pyStrip_space p hsp]
  show insertEverywhere ('\n' :: (([] : List Char) ++ ['\n'])) s = _
  rw [show ('\n' :: (([] : List Char) ++ ['\n'])) = ['\n', '\n'] from rfl]
  rw [insertEverywhere_foldr]
  rfl

/-- Witness for C10 at a concrete input. -/
theorem C10_whitespace_paragraph_inserts_breaks_witness :
    (" ".toList ≠ ([] : List Char))
    ∧ (∀ c ∈ " ".toList, pyIsSpace c = true)
    ∧ split_paragraph ("ab".toList) (" ".toList)
      = ("ab".toList).foldr (fun c acc => '\n' :: '\n' :: (c :: acc))
          ['\n', '\n'] :=
  ⟨by decide, by decide,
    C10_whitespace_paragraph_inserts_breaks ("ab".toList) (" ".toList)
      (by decide) (by decide)⟩

end OwnParser
